import Mathlib

/-!
Verification development for a Pascal-subset front end and tree-walking
interpreter (Rust sources: lexer.rs, token.rs, parser.rs, ast.rs,
semantic_analyzer.rs, symbols.rs, interpreter.rs, call_stack.rs).

Embedding conventions, stated once here:
* Rust `f32` values are modelled as exact rationals (`Rat`); the interpreter
  only combines values with `+ - * /` and casts, and every claim under
  verification is about tagging, control flow, or small-integer arithmetic
  where `f32` arithmetic is exact.  `f32` rounding and infinities are not
  modelled; where a claim would depend on them this is noted at the claim.
* Rust `i32` payloads are modelled as `Int`; the one place the code relies on
  `i32` machine semantics (the `as i32` saturating cast and the panicking
  division in `DIV`) is modelled explicitly with saturation bounds and
  explicit panic outcomes.
* Rust panics (`Option::unwrap` on an empty call stack, integer division by
  zero / overflow) are modelled as a distinguished `panic` outcome carrying
  the panic cause; `Err(...)` returns are the `err` outcome and carry the
  interpreter state, which the caller retains in Rust.
* Recursive interpretation can diverge (a procedure calling itself
  unconditionally), so the tree walk takes explicit fuel; running out of fuel
  is the distinguished outcome `fuelOut`, which corresponds to no Rust
  behaviour other than non-termination and is excluded by hypotheses.
* Diagnostic-only location bookkeeping (line / column / source snippet on
  tokens and errors) and the `log_call_stack` pretty-printing flag are not
  modelled; no claim mentions them.
-/

namespace Pascal

/-- Mirror of `token.rs` `enum Token` (the `LocatedToken` wrapper adds only
line/column/snippet diagnostics, which are not modelled). `RealConst(f32)`
carries a rational, per the `f32`-as-`Rat` convention. -/
inductive Token where
  | program
  | var
  | colon
  | comma
  | integerConst (v : Int)
  | integer
  | integerDiv
  | realConst (v : Rat)
  | real
  | floatDiv
  | plus
  | minus
  | asterisk
  | lParenthesis
  | rParenthesis
  | begin
  | end_
  | dot
  | id (name : String)
  | assign
  | semi
  | eof
  | procedure
deriving DecidableEq, Repr

/-- Rust `std::mem::discriminant` comparison used by `Parser::eat`: tokens
compare equal when they are the same variant, payloads ignored. -/
def Token.kindEq : Token → Token → Bool
  | .integerConst _, .integerConst _ => true
  | .realConst _, .realConst _ => true
  | .id _, .id _ => true
  | t1, t2 => t1 = t2

/-- Mirror of `ast.rs` `enum BuiltinNumTypes`: tagged numeric values. -/
inductive BuiltinNumTypes where
  | i32 (v : Int)
  | f32 (v : Rat)
deriving DecidableEq, Repr

/-- Mirror of `symbols.rs` `enum BuiltinTypes`. -/
inductive BuiltinTypes where
  | integer
  | real
deriving DecidableEq, Repr

/-- `BuiltinTypes::to_string()` via its `Display` impl. -/
def BuiltinTypes.toName : BuiltinTypes → String
  | .integer => "INTEGER"
  | .real => "REAL"

mutual
/-- Mirror of `ast.rs` `enum ASTNode`.  The never-read diagnostic `token`
fields of `Type`, `NumNode` and `Assign` are omitted (the parser snapshot in
the repository does not even populate the first two).  `ProcedureCall`'s
`RefCell<Option<Box<Symbol>>>` resolver slot is the `proc_symbol : Option
Symbol` field: filled by semantic analysis, read by the interpreter. -/
inductive ASTNode where
  | programNode (name : String) (block : ASTNode)
  | block (declarations : List ASTNode) (compound_statement : ASTNode)
  | procedureDecl (proc_name : String) (params : List ASTNode) (block_node : ASTNode)
  | param (var_node : ASTNode) (type_node : ASTNode)
  | varDecl (var_node : ASTNode) (type_node : ASTNode)
  | typeNode (value : String)
  | compound (children : List ASTNode)
  | assign (left : ASTNode) (right : ASTNode)
  | var (name : String)
  | noOp
  | unaryOpNode (expr : ASTNode) (token : Token)
  | binOpNode (left : ASTNode) (right : ASTNode) (op : Token)
  | numNode (value : BuiltinNumTypes)
  | procedureCall (proc_name : String) (arguments : List ASTNode) (proc_symbol : Option Symbol)

/-- Mirror of `symbols.rs` `struct Symbol`. -/
inductive Symbol where
  | mk (name : String) (kind : SymbolKind)

/-- Mirror of `symbols.rs` `enum SymbolKind`; `Procedure` stores the declared
parameter names and (a clone of) the procedure's block node. -/
inductive SymbolKind where
  | builtinType (t : BuiltinTypes)
  | varSymbol (type_name : String)
  | procedure (param_names : List String) (block : ASTNode)
end

/-- Name of a `Symbol`. -/
def Symbol.name : Symbol → String
  | .mk n _ => n

/-- Kind of a `Symbol`. -/
def Symbol.kind : Symbol → SymbolKind
  | .mk _ k => k

/-- Mirror of `call_stack.rs` `enum ARType`. -/
inductive ARType where
  | program
  | procedure
deriving DecidableEq, Repr

/-- Mirror of `call_stack.rs` `struct ActivationRecord`; the `HashMap` of
members is an association list (insert overwrites, lookup finds the binding). -/
structure ActivationRecord where
  name : String
  ar_type : ARType
  nesting_level : Nat
  members : List (String × BuiltinNumTypes)
deriving DecidableEq, Repr

/-- `ActivationRecord::set` — `HashMap::insert`, overwriting any previous
binding for `name`. -/
def ActivationRecord.set (ar : ActivationRecord) (name : String) (v : BuiltinNumTypes) :
    ActivationRecord :=
  { ar with members := updateAssoc ar.members name v }
where
  updateAssoc : List (String × BuiltinNumTypes) → String → BuiltinNumTypes →
      List (String × BuiltinNumTypes)
    | [], n, v => [(n, v)]
    | (k, w) :: rest, n, v =>
      if k = n then (n, v) :: rest else (k, w) :: updateAssoc rest n v

/-- `ActivationRecord::get` — `HashMap::get`. -/
def ActivationRecord.get (ar : ActivationRecord) (name : String) : Option BuiltinNumTypes :=
  (ar.members.find? (fun p => p.1 = name)).map (·.2)

/-- Mirror of `interpreter.rs` `struct Interpreter`.  The `CallStack`'s `Vec`
is a list whose HEAD is the top of the stack (`Vec::push`/`pop`/`last` become
cons / tail / head).  The diagnostics-only `log_call_stack` flag is omitted. -/
structure Interpreter where
  call_stack : List ActivationRecord
deriving DecidableEq, Repr

/-- `Interpreter::new` — empty call stack. -/
def Interpreter.new : Interpreter := ⟨[]⟩

/-- `CallStack::push`. -/
def stackPush (st : Interpreter) (ar : ActivationRecord) : Interpreter :=
  ⟨ar :: st.call_stack⟩

/-- `CallStack::pop` — `Vec::pop` is a no-op on an empty stack. -/
def stackPop (st : Interpreter) : Interpreter :=
  ⟨st.call_stack.tail⟩

/-- Write `name := v` into the top activation record; callers only reach this
after a successful `peek().unwrap()`, so the empty case is never used. -/
def stackSetTop (st : Interpreter) (name : String) (v : BuiltinNumTypes) : Interpreter :=
  match st.call_stack with
  | [] => st
  | ar :: rest => ⟨ar.set name v :: rest⟩

/-- Mirror of `interpreter.rs` `enum BinaryOperandSide`. -/
inductive BinaryOperandSide where
  | left
  | right
deriving DecidableEq, Repr

/-- Mirror of `interpreter.rs` `enum InterpretError` (shared by the semantic
analyzer, which also returns `InterpretResult`). -/
inductive InterpretError where
  | symbolAlreadyDefined (name : String)
  | invalidVarDeclVarNode
  | invalidVarDeclTypeNode
  | undefinedType (type_name : String) (var_name : String)
  | assignTargetMustBeVar
  | undefinedVariable (name : String)
  | undefinedFunction (name : String)
  | procCallMissingArgs (proc_name : String) (expected : Nat) (got : Nat)
  | uninitializedVariable (name : String)
  | missingUnaryOperand
  | invalidUnaryOperator (token : Token)
  | missingBinaryOperand (side : BinaryOperandSide)
  | invalidBinaryOperator (token : Token)
  | missingAssignmentValue (name : String)
deriving DecidableEq, Repr

/-- Cause of a Rust panic (process abort) in the interpreter: `unwrap()` of
`CallStack::peek` on an empty stack, or `i32` division by zero / overflow in
the `DIV` arm of `visit_bin_op_node`. -/
inductive PanicKind where
  | unwrapEmptyCallStack
  | divideByZero
  | divideOverflow
deriving DecidableEq, Repr

/-- Outcome of `Interpreter::visit`: `Ok(Option<BuiltinNumTypes>)` and
`Err(InterpretError)` both leave the caller holding the interpreter state, so
both carry it; `panic` aborts the process; `fuelOut` marks fuel exhaustion
(source-level non-termination). -/
inductive VisitResult where
  | ok (value : Option BuiltinNumTypes) (st : Interpreter)
  | err (e : InterpretError) (st : Interpreter)
  | panic (k : PanicKind)
  | fuelOut
deriving DecidableEq, Repr

/-- `i32::MIN`. -/
def i32Min : Int := -2147483648

/-- `i32::MAX`. -/
def i32Max : Int := 2147483647

/-- Rust `f32 as i32`: truncation toward zero, saturating at the `i32` bounds
(our rationals have no NaN, whose cast would be 0). `Int.tdiv` truncates toward
zero, matching Rust `i32` division of the numerator by the denominator. -/
def ratAsI32 (q : Rat) : Int :=
  max i32Min (min i32Max (Int.tdiv q.num (q.den : Int)))

/-- Promotion used throughout `visit_unary_op_node` / `visit_bin_op_node`:
an `F32` payload is used as is, an `I32` payload is cast to `f32`
(exact under the `f32`-as-`Rat` convention). -/
def BuiltinNumTypes.toRat : BuiltinNumTypes → Rat
  | .f32 v => v
  | .i32 v => (v : Rat)

/-- Work items of the tree walk: a single node, a statement sequence visited
with `?` (block declarations, compound children), or the zipped
parameter/argument binding loop of `visit_procedure_call_node`.  The three are
one fuel-indexed function so that the recursion is structural on fuel and
closed runs reduce definitionally. -/
inductive VisitTask where
  | node (n : ASTNode)
  | stmts (l : List ASTNode)
  | binds (l : List (String × ASTNode))

/-- Mirror of `Interpreter::visit` (interpreter.rs) and its `visit_*_node`
helpers, fuel-indexed.  Each case is a direct transcription of the
corresponding Rust arm; comments mark the translation of each control-flow
subtlety (early `return Err` without popping, `pop` running on both `Ok` and
`Err` of the body, `peek().unwrap()` panics). -/
def visitAux : Nat → Interpreter → VisitTask → VisitResult
  | 0, _, _ => .fuelOut
  | Nat.succ n, st, task =>
    match task with
    | .node (.numNode v) => .ok (some v) st
    | .node (.unaryOpNode expr token) =>
      -- visit_unary_op_node: promote the operand, then dispatch on the token
      match visitAux n st (.node expr) with
      | .ok (some v) st1 =>
        match token with
        | .plus => .ok (some (.f32 v.toRat)) st1
        | .minus => .ok (some (.f32 (-v.toRat))) st1
        | _ => .err (.invalidUnaryOperator token) st1
      | .ok none st1 => .err .missingUnaryOperand st1
      | r => r
    | .node (.binOpNode left right op) =>
      -- visit_bin_op_node: left then right, each promoted to f32
      match visitAux n st (.node left) with
      | .ok (some lv) st1 =>
        (match visitAux n st1 (.node right) with
        | .ok (some rv) st2 =>
          (match op with
          | .plus => .ok (some (.f32 (lv.toRat + rv.toRat))) st2
          | .minus => .ok (some (.f32 (lv.toRat - rv.toRat))) st2
          | .asterisk => .ok (some (.f32 (lv.toRat * rv.toRat))) st2
          | .floatDiv => .ok (some (.f32 (lv.toRat / rv.toRat))) st2
          | .integerDiv =>
            -- (left_value as i32) / (right_value as i32): Rust i32 division
            -- panics on a zero divisor and on i32::MIN / -1
            let li := ratAsI32 lv.toRat
            let ri := ratAsI32 rv.toRat
            if ri = 0 then .panic .divideByZero
            else if li = i32Min ∧ ri = -1 then .panic .divideOverflow
            else .ok (some (.f32 ((Int.tdiv li ri : Int) : Rat))) st2
          | _ => .err (.invalidBinaryOperator op) st2)
        | .ok none st2 => .err (.missingBinaryOperand .right) st2
        | r => r)
      | .ok none st1 => .err (.missingBinaryOperand .left) st1
      | r => r
    | .node (.assign left right) =>
      -- visit_assign_node; the wrapper then yields Ok(None)
      match left with
      | .var name =>
        (match visitAux n st (.node right) with
        | .ok (some v) st1 =>
          (match st1.call_stack with
          | [] => .panic .unwrapEmptyCallStack  -- peek().unwrap()
          | _ :: _ => .ok none (stackSetTop st1 name v))
        | .ok none st1 => .err (.missingAssignmentValue name) st1
        | r => r)
      | _ => .err .assignTargetMustBeVar st
    | .node (.var name) =>
      -- visit_var_node: read from the TOP frame only; absence of a binding is
      -- UninitializedVariable (no symbol table is consulted: the Interpreter
      -- struct has none)
      match st.call_stack with
      | [] => .panic .unwrapEmptyCallStack  -- peek().unwrap()
      | ar :: _ =>
        match ar.get name with
        | some v => .ok (some v) st
        | none => .err (.uninitializedVariable name) st
    | .node (.compound children) =>
      -- visit_compound_node: children in order, each with `?`; value dropped
      match visitAux n st (.stmts children) with
      | .ok _ st1 => .ok none st1
      | r => r
    | .node .noOp => .ok none st
    | .node (.programNode name block) =>
      -- visit_program_node: push a Program record at level 1, evaluate the
      -- block, pop on exit for both Ok and Err results
      let st1 := stackPush st ⟨name, .program, 1, []⟩
      (match visitAux n st1 (.node block) with
      | .ok _ st2 => .ok none (stackPop st2)
      | .err e st2 => .err e (stackPop st2)
      | r => r)
    | .node (.block decls cs) =>
      -- visit_block_node: declarations each with `?`, then the compound
      -- statement; the wrapper yields Ok(None)
      match visitAux n st (.stmts decls) with
      | .ok _ st1 =>
        (match visitAux n st1 (.node cs) with
        | .ok _ st2 => .ok none st2
        | r => r)
      | r => r
    | .node (.varDecl _ _) => .ok none st
    | .node (.typeNode _) => .ok none st
    | .node (.procedureDecl _ _ _) => .ok none st
    | .node (.param _ _) => .ok none st
    | .node (.procedureCall proc_name args slot) =>
      -- visit_procedure_call_node, in source order:
      -- 1. peek().unwrap() for the current nesting level (panics on empty);
      -- 2. push the new Procedure record;
      -- 3. inspect the resolver slot: if empty or not a Procedure symbol,
      --    return Err(UndefinedFunction) WITHOUT popping;
      -- 4. bind zipped (param, argument) pairs, `?` errors also skip the pop;
      -- 5. evaluate the block, then pop for both Ok and Err results.
      match st.call_stack with
      | [] => .panic .unwrapEmptyCallStack
      | top :: _ =>
        let st1 := stackPush st ⟨proc_name, .procedure, top.nesting_level + 1, []⟩
        match slot with
        | some (.mk _ (.procedure param_names block)) =>
          (match visitAux n st1 (.binds (param_names.zip args)) with
          | .ok _ st2 =>
            (match visitAux n st2 (.node block) with
            | .ok v st3 => .ok v (stackPop st3)
            | .err e st3 => .err e (stackPop st3)
            | r => r)
          | r => r)
        | some _ => .err (.undefinedFunction proc_name) st1
        | none => .err (.undefinedFunction proc_name) st1
    | .stmts [] => .ok none st
    | .stmts (c :: cs) =>
      match visitAux n st (.node c) with
      | .ok _ st1 => visitAux n st1 (.stmts cs)
      | r => r
    | .binds [] => .ok none st
    | .binds ((p, a) :: rest) =>
      -- self.visit(arg)?.ok_or(AssignTargetMustBeVar)?; then
      -- call_stack.peek().unwrap().borrow_mut().set(param, value)
      match visitAux n st (.node a) with
      | .ok (some v) st1 =>
        (match st1.call_stack with
        | [] => .panic .unwrapEmptyCallStack
        | _ :: _ => visitAux n (stackSetTop st1 p v) (.binds rest))
      | .ok none st1 => .err .assignTargetMustBeVar st1
      | r => r

/-- `Interpreter::interpret`, fuel-indexed. -/
def Interpreter.interpret (st : Interpreter) (fuel : Nat) (node : ASTNode) : VisitResult :=
  visitAux fuel st (.node node)

/-- Mirror of `lexer.rs` `struct LexerError`, reduced to its message. -/
structure LexerError where
  message : String
deriving DecidableEq, Repr

instance {ε α : Type} [DecidableEq ε] [DecidableEq α] : DecidableEq (Except ε α) :=
  fun a b =>
    match a, b with
    | .ok x, .ok y => if h : x = y then .isTrue (by rw [h]) else .isFalse (by simp [h])
    | .error x, .error y => if h : x = y then .isTrue (by rw [h]) else .isFalse (by simp [h])
    | .ok _, .error _ => .isFalse (by simp)
    | .error _, .ok _ => .isFalse (by simp)

/-- Numeric value of a digit string (the digits-accumulation in
`Lexer::number` / `str::parse`). -/
def digitsToNat : List Char → Nat :=
  List.foldl (fun acc c => 10 * acc + (c.toNat - '0'.toNat)) 0

/-- Value `str::parse::<f32>` assigns to `intdigits ++ "." ++ fracdigits`
(exact, per the `f32`-as-`Rat` convention; `"12."` parses to `12.0`). -/
def realOfParts (intPart fracPart : List Char) : Rat :=
  (digitsToNat intPart : Rat) + (digitsToNat fracPart : Rat) / ((10 : Rat) ^ fracPart.length)

/-- `RESERVER_KEYWORDS` from token.rs. -/
def RESERVER_KEYWORDS : List (String × Token) :=
  [("program", .program), ("begin", .begin), ("end", .end_), ("var", .var),
   ("div", .integerDiv), ("integer", .integer), ("real", .real),
   ("procedure", .procedure)]

/-- Mirror of `Lexer::number`: consume digits; if a `.` follows, consume it and
any further digits and parse the whole slice as a real (this accepts a dangling
decimal point such as `"12."`); otherwise parse the digits as an `i32`,
which fails above `i32::MAX`.  Returns the token and the remaining input. -/
def lexNumber (cs : List Char) : Except LexerError (Token × List Char) :=
  let ds := cs.takeWhile Char.isDigit
  let rest := cs.dropWhile Char.isDigit
  if ds = [] then .error ⟨"Expected integer but found none"⟩
  else
    match rest with
    | '.' :: rest2 =>
      let fs := rest2.takeWhile Char.isDigit
      let rest3 := rest2.dropWhile Char.isDigit
      .ok (.realConst (realOfParts ds fs), rest3)
    | _ =>
      if digitsToNat ds ≤ 2147483647 then .ok (.integerConst (digitsToNat ds : Int), rest)
      else .error ⟨"Parse error: number too large to fit in target type"⟩

/-- Mirror of `Lexer::_id`: consume alphanumerics folded to lower case and
look the word up in the reserved-keyword map (ASCII inputs assumed; Rust's
`char::is_alphanumeric` is Unicode-aware, Lean's `Char.isAlphanum` is ASCII). -/
def lexId (cs : List Char) : Token × List Char :=
  let ws := cs.takeWhile Char.isAlphanum
  let rest := cs.dropWhile Char.isAlphanum
  let word := String.mk (ws.map Char.toLower)
  match (RESERVER_KEYWORDS.find? (fun p => p.1 = word)).map (·.2) with
  | some t => (t, rest)
  | none => (.id word, rest)

/-- Mirror of `Lexer::skip_comment`: consume characters up to and including
the first `}`; an unterminated comment silently consumes all remaining input. -/
def skipComment : List Char → List Char
  | [] => []
  | c :: cs => if c = '}' then cs else skipComment cs

/-- Mirror of `Lexer::next_token`, fuel-indexed only because the `{`-comment
arm re-enters `next_token` after `skip_comment`; every re-entry has consumed
at least the `{`, so `cs.length + 1` fuel always suffices (see `nextToken`). -/
def nextTokenF : Nat → List Char → Except LexerError (Token × List Char)
  | 0, _ => .error ⟨"fuel exhausted"⟩
  | Nat.succ n, cs =>
    let cs1 := cs.dropWhile Char.isWhitespace
    match cs1 with
    | [] => .ok (.eof, [])
    | c :: rest =>
      if c.isDigit then lexNumber cs1
      else if c.isAlphanum then .ok (lexId cs1)
      else if c = '{' then nextTokenF n (skipComment rest)
      else if c = ':' then
        match rest with
        | '=' :: rest2 => .ok (.assign, rest2)
        | _ => .ok (.colon, rest)
      else if c = '+' then .ok (.plus, rest)
      else if c = '-' then .ok (.minus, rest)
      else if c = '*' then .ok (.asterisk, rest)
      else if c = '/' then .ok (.floatDiv, rest)
      else if c = '(' then .ok (.lParenthesis, rest)
      else if c = ')' then .ok (.rParenthesis, rest)
      else if c = '.' then .ok (.dot, rest)
      else if c = ';' then .ok (.semi, rest)
      else if c = ',' then .ok (.comma, rest)
      else .error ⟨"Unexpected character"⟩

/-- `Lexer::next_token` with the always-sufficient fuel. -/
def nextToken (cs : List Char) : Except LexerError (Token × List Char) :=
  nextTokenF (cs.length + 1) cs

/-- Drive `next_token` to EOF, collecting the tokens before the terminal
`Eof` (each non-EOF token consumes at least one character, so `length + 1`
outer steps suffice). -/
def tokenizeF : Nat → List Char → Except LexerError (List Token)
  | 0, _ => .error ⟨"fuel exhausted"⟩
  | Nat.succ n, cs =>
    match nextToken cs with
    | .error e => .error e
    | .ok (.eof, _) => .ok []
    | .ok (t, rest) =>
      match tokenizeF n rest with
      | .error e => .error e
      | .ok ts => .ok (t :: ts)

/-- Tokenize a whole string (the lexer-driving loop of the pipeline). -/
def tokenize (s : String) : Except LexerError (List Token) :=
  tokenizeF (s.length + 1) s.toList

/-- Mirror of parser.rs `struct SyntaxError`, reduced to its title (detail and
location diagnostics are not modelled). -/
structure ParseError where
  title : String
deriving DecidableEq, Repr

/-- Parser state: `current_token` lookahead plus remaining tokens. -/
structure PState where
  current_token : Token
  rest : List Token
deriving DecidableEq, Repr

/-- Refill the lookahead from the stream (EOF past the end). -/
def PState.advance (st : PState) : PState :=
  match st.rest with
  | [] => ⟨.eof, []⟩
  | t :: ts => ⟨t, ts⟩

/-- `Parser::new`: prime the lookahead from the token stream. -/
def mkPState : List Token → PState
  | [] => ⟨.eof, []⟩
  | t :: ts => ⟨t, ts⟩

/-- Mirror of `Parser::eat` with a `Some(expected)` argument: compare
discriminants only, then advance. -/
def eat (st : PState) (expected : Token) : Except ParseError PState :=
  if st.current_token.kindEq expected then .ok st.advance
  else .error ⟨"Unexpected token type"⟩

/-- Outcome of a parse rule. -/
inductive PResult where
  | ok (node : ASTNode) (st : PState)
  | err (e : ParseError)
  | fuelOut

/-- Parse rules of the expression subset; `termLoop` / `exprLoop` are the
iterative accumulation loops inside `Parser::term` / `Parser::expr`. -/
inductive PTask where
  | factor
  | term
  | termLoop (acc : ASTNode)
  | expr
  | exprLoop (acc : ASTNode)
  | variableRule

/-- Mirror of `Parser::factor` / `term` / `expr` / `variable` (parser.rs),
fuel-indexed so that the mutual recursion (parenthesised sub-expressions,
unary factors, accumulation loops) is structural on fuel. -/
def parseAux : Nat → PState → PTask → PResult
  | 0, _, _ => .fuelOut
  | Nat.succ n, st, task =>
    match task with
    | .variableRule =>
      match st.current_token with
      | .id name =>
        (match eat st (.id name) with
        | .ok st1 => .ok (.var name) st1
        | .error e => .err e)
      | _ => .err ⟨"Unexpected token type"⟩
    | .factor =>
      match st.current_token with
      | .plus =>
        (match eat st .plus with
        | .ok st1 =>
          (match parseAux n st1 .factor with
          | .ok node st2 => .ok (.unaryOpNode node .plus) st2
          | r => r)
        | .error e => .err e)
      | .minus =>
        (match eat st .minus with
        | .ok st1 =>
          (match parseAux n st1 .factor with
          | .ok node st2 => .ok (.unaryOpNode node .minus) st2
          | r => r)
        | .error e => .err e)
      | .integerConst v =>
        (match eat st (.integerConst 0) with
        | .ok st1 => .ok (.numNode (.i32 v)) st1
        | .error e => .err e)
      | .realConst v =>
        (match eat st (.realConst 0) with
        | .ok st1 => .ok (.numNode (.f32 v)) st1
        | .error e => .err e)
      | .lParenthesis =>
        (match eat st .lParenthesis with
        | .ok st1 =>
          (match parseAux n st1 .expr with
          | .ok node st2 =>
            (match eat st2 .rParenthesis with
            | .ok st3 => .ok node st3
            | .error e => .err e)
          | r => r)
        | .error e => .err e)
      | .id _ => parseAux n st .variableRule
      | _ => .err ⟨"Unexpected token type"⟩
    | .term =>
      match parseAux n st .factor with
      | .ok node st1 => parseAux n st1 (.termLoop node)
      | r => r
    | .termLoop acc =>
      -- the loop in Parser::term: continue on * / DIV, break on Eof or others
      match st.current_token with
      | .eof => .ok acc st
      | .asterisk =>
        (match eat st .asterisk with
        | .ok st1 =>
          (match parseAux n st1 .factor with
          | .ok rightNode st2 => parseAux n st2 (.termLoop (.binOpNode acc rightNode .asterisk))
          | r => r)
        | .error e => .err e)
      | .floatDiv =>
        (match eat st .floatDiv with
        | .ok st1 =>
          (match parseAux n st1 .factor with
          | .ok rightNode st2 => parseAux n st2 (.termLoop (.binOpNode acc rightNode .floatDiv))
          | r => r)
        | .error e => .err e)
      | .integerDiv =>
        (match eat st .integerDiv with
        | .ok st1 =>
          (match parseAux n st1 .factor with
          | .ok rightNode st2 => parseAux n st2 (.termLoop (.binOpNode acc rightNode .integerDiv))
          | r => r)
        | .error e => .err e)
      | _ => .ok acc st
    | .expr =>
      match parseAux n st .term with
      | .ok node st1 => parseAux n st1 (.exprLoop node)
      | r => r
    | .exprLoop acc =>
      -- the loop in Parser::expr: continue on + -, break on Eof or others
      match st.current_token with
      | .eof => .ok acc st
      | .plus =>
        (match eat st .plus with
        | .ok st1 =>
          (match parseAux n st1 .term with
          | .ok rightNode st2 => parseAux n st2 (.exprLoop (.binOpNode acc rightNode .plus))
          | r => r)
        | .error e => .err e)
      | .minus =>
        (match eat st .minus with
        | .ok st1 =>
          (match parseAux n st1 .term with
          | .ok rightNode st2 => parseAux n st2 (.exprLoop (.binOpNode acc rightNode .minus))
          | r => r)
        | .error e => .err e)
      | _ => .ok acc st

/-- Tokenize, parse as an expression, and interpret (the expression pipeline:
`Lexer` → `Parser::expr` → `Interpreter::interpret`), with fuels amply
derived from the input sizes. -/
def evalArithString (s : String) : Option VisitResult :=
  match tokenize s with
  | .error _ => none
  | .ok ts =>
    match parseAux (3 * ts.length + 3) (mkPState ts) .expr with
    | .ok node _ => some (visitAux (3 * ts.length + 3) Interpreter.new (.node node))
    | _ => none

/-- The builtins seeded by `ScopedSymbolTable::init_builtins` into every fresh
scope, before any user declarations. -/
def builtinSymbols : List (String × Symbol) :=
  [(BuiltinTypes.integer.toName, .mk BuiltinTypes.integer.toName (.builtinType .integer)),
   (BuiltinTypes.real.toName, .mk BuiltinTypes.real.toName (.builtinType .real))]

/-- One `ScopedSymbolTable` minus its parent pointer (the chain is the list). -/
structure Scope where
  table : List (String × Symbol)
  scope_name : String
  scope_level : Nat

/-- `ScopedSymbolTable::new` + `init_builtins`. -/
def Scope.new (name : String) (level : Nat) : Scope :=
  ⟨builtinSymbols, name, level⟩

/-- `ScopedSymbolTable::define`: insert/overwrite by name, current scope only,
no duplicate check at this layer. -/
def Scope.define (s : Scope) (sym : Symbol) : Scope :=
  { s with table := updateSymAssoc s.table sym }
where
  updateSymAssoc : List (String × Symbol) → Symbol → List (String × Symbol)
    | [], sym => [(sym.name, sym)]
    | (k, w) :: rest, sym =>
      if k = sym.name then (sym.name, sym) :: rest else (k, w) :: updateSymAssoc rest sym

/-- Lookup in one scope's table. -/
def Scope.lookupLocal (s : Scope) (name : String) : Option Symbol :=
  (s.table.find? (fun p => p.1 = name)).map (·.2)

/-- `ScopedSymbolTable::lookup`: current scope first, then (unless
`current_scope_only`) each enclosing scope in order, first match wins. -/
def lookupChain : List Scope → String → Bool → Option Symbol
  | [], _, _ => none
  | s :: rest, name, current_scope_only =>
    match s.lookupLocal name with
    | some sym => some sym
    | none => if current_scope_only then none else lookupChain rest name false

/-- Mirror of `struct SemanticAnalyzer`: the current scope plus its enclosing
chain (head = `current_scope`). -/
structure SemanticAnalyzer where
  scopes : List Scope

/-- `SemanticAnalyzer::new`: a single root scope named "0" at level 0. -/
def SemanticAnalyzer.new : SemanticAnalyzer :=
  ⟨[Scope.new "0" 0]⟩

/-- `SemanticAnalyzer::lookup_symbol`. -/
def SemanticAnalyzer.lookup (sa : SemanticAnalyzer) (name : String)
    (current_scope_only : Bool) : Option Symbol :=
  lookupChain sa.scopes name current_scope_only

/-- `SemanticAnalyzer::define_symbol` (into the current scope). -/
def SemanticAnalyzer.defineSymbol (sa : SemanticAnalyzer) (sym : Symbol) : SemanticAnalyzer :=
  match sa.scopes with
  | [] => sa
  | s :: rest => ⟨s.define sym :: rest⟩

/-- `SemanticAnalyzer::enter_scope`: level is the current scope's level + 1. -/
def SemanticAnalyzer.enterScope (sa : SemanticAnalyzer) (name : String) : SemanticAnalyzer :=
  let level := (sa.scopes.head?.map (·.scope_level)).getD 0 + 1
  ⟨Scope.new name level :: sa.scopes⟩

/-- `SemanticAnalyzer::exit_scope`: move to the parent when one exists
(no-op at the root). -/
def SemanticAnalyzer.exitScope (sa : SemanticAnalyzer) : SemanticAnalyzer :=
  match sa.scopes with
  | _ :: parent :: rest => ⟨parent :: rest⟩
  | other => ⟨other⟩

/-- Outcome of a semantic-analyzer visit (`InterpretResult<()>` in Rust, with
the analyzer state carried on both `Ok` and `Err`). -/
inductive SAResult where
  | ok (sa : SemanticAnalyzer)
  | err (e : InterpretError) (sa : SemanticAnalyzer)
  | fuelOut

/-- First pass over a `ProcedureDecl`'s parameter list: collect the parameter
names, with the source's error values for malformed nodes. -/
def collectParamNames : List ASTNode → Except InterpretError (List String)
  | [] => .ok []
  | .param (.var name) _ :: rest =>
    (match collectParamNames rest with
    | .ok names => .ok (name :: names)
    | .error e => .error e)
  | .param _ _ :: _ => .error .assignTargetMustBeVar
  | _ :: _ => .error .invalidVarDeclVarNode

/-- Second pass over the parameter list, run inside the procedure's own
scope: define each parameter as a `Variable` symbol of its declared type. -/
def defineParams : List ASTNode → SemanticAnalyzer → Except InterpretError SemanticAnalyzer
  | [], sa => .ok sa
  | .param (.var name) (.typeNode type_name) :: rest, sa =>
    defineParams rest (sa.defineSymbol (.mk name (.varSymbol type_name)))
  | .param (.var _) _ :: _, _ => .error .invalidVarDeclTypeNode
  | .param _ _ :: _, _ => .error .invalidVarDeclVarNode
  | _ :: _, _ => .error .invalidVarDeclVarNode

/-- Work items of the semantic analyzer's walk: a node, or a `?`-sequenced
list of nodes (block declarations, compound children, call arguments). -/
inductive SATask where
  | node (n : ASTNode)
  | stmts (l : List ASTNode)

/-- Mirror of `SemanticAnalyzer::visit` and its `visit_*_node` helpers,
fuel-indexed (the analyzer itself terminates, but fuel keeps the recursion
structural over the nested lists).  The write into the call node's resolver
slot (`*proc_symbol.borrow_mut() = ...`) has no effect on the analyzer's own
control flow or state and is not modelled; the interpreter-side claims take
the slot's contents as an input instead. -/
def saVisitAux : Nat → SemanticAnalyzer → SATask → SAResult
  | 0, _, _ => .fuelOut
  | Nat.succ n, sa, task =>
    match task with
    | .node (.programNode _ block) =>
      -- visit_program_node: enter "global", visit the block, exit on both
      -- Ok and Err results
      let sa1 := sa.enterScope "global"
      (match saVisitAux n sa1 (.node block) with
      | .ok sa2 => .ok sa2.exitScope
      | .err e sa2 => .err e sa2.exitScope
      | r => r)
    | .node (.block decls cs) =>
      (match saVisitAux n sa (.stmts decls) with
      | .ok sa1 => saVisitAux n sa1 (.node cs)
      | r => r)
    | .node (.compound children) => saVisitAux n sa (.stmts children)
    | .node (.varDecl var_node type_node) =>
      -- visit_var_decl_node: shape checks, resolve the type anywhere in the
      -- chain, reject a duplicate in the CURRENT scope, then define
      (match var_node with
      | .var var_name =>
        (match type_node with
        | .typeNode type_name =>
          (match sa.lookup type_name false with
          | none => .err (.undefinedType type_name var_name) sa
          | some _ =>
            match sa.lookup var_name true with
            | some _ => .err (.symbolAlreadyDefined var_name) sa
            | none => .ok (sa.defineSymbol (.mk var_name (.varSymbol type_name))))
        | _ => .err .invalidVarDeclTypeNode sa)
      | _ => .err .invalidVarDeclVarNode sa)
    | .node (.procedureDecl proc_name params block) =>
      -- visit_procedure_decl_node: collect parameter names, define the
      -- Procedure symbol in the CURRENT (enclosing) scope — with no duplicate
      -- check — then enter the procedure's own scope, define the parameters
      -- there, visit the block, and exit on both Ok and Err results
      (match collectParamNames params with
      | .error e => .err e sa
      | .ok param_names =>
        let sa1 := sa.defineSymbol (.mk proc_name (.procedure param_names block))
        let sa2 := sa1.enterScope proc_name
        match defineParams params sa2 with
        | .error e => .err e sa2
        | .ok sa3 =>
          match saVisitAux n sa3 (.node block) with
          | .ok sa4 => .ok sa4.exitScope
          | .err e sa4 => .err e sa4.exitScope
          | r => r)
    | .node (.procedureCall proc_name args _) =>
      -- visit_procedure_call_node: resolve the name anywhere in the chain; a
      -- missing name or a non-Procedure symbol is UndefinedFunction; check
      -- arity; then visit each argument with `?`
      (match sa.lookup proc_name false with
      | some (.mk _ (.procedure param_names _)) =>
        if param_names.length ≠ args.length then
          .err (.procCallMissingArgs proc_name param_names.length args.length) sa
        else saVisitAux n sa (.stmts args)
      | some _ => .err (.undefinedFunction proc_name) sa
      | none => .err (.undefinedFunction proc_name) sa)
    | .node (.assign left right) =>
      (match left with
      | .var _ =>
        (match saVisitAux n sa (.node left) with
        | .ok sa1 => saVisitAux n sa1 (.node right)
        | r => r)
      | _ => .err .assignTargetMustBeVar sa)
    | .node (.var name) =>
      (match sa.lookup name false with
      | none => .err (.undefinedVariable name) sa
      | some _ => .ok sa)
    | .node (.unaryOpNode expr _) => saVisitAux n sa (.node expr)
    | .node (.binOpNode left right _) =>
      (match saVisitAux n sa (.node left) with
      | .ok sa1 => saVisitAux n sa1 (.node right)
      | r => r)
    | .node (.typeNode _) => .ok sa
    | .node (.numNode _) => .ok sa
    | .node (.param _ _) => .ok sa
    | .node .noOp => .ok sa
    | .stmts [] => .ok sa
    | .stmts (c :: cs) =>
      match saVisitAux n sa (.node c) with
      | .ok sa1 => saVisitAux n sa1 (.stmts cs)
      | r => r

/-- `SemanticAnalyzer::analyze` from a fresh analyzer, fuel-indexed. -/
def analyze (fuel : Nat) (node : ASTNode) : SAResult :=
  saVisitAux fuel SemanticAnalyzer.new (.node node)

inductive AExp where
  | lit (n : Nat)
  | add (a b : AExp)
  | sub (a b : AExp)
  | mul (a b : AExp)
  | div (a b : AExp)

/-- Standard mathematical evaluation (left-to-right is irrelevant here since
the tree already fixes the association). -/
def AExp.eval : AExp → Rat
  | .lit n => n
  | .add a b => a.eval + b.eval
  | .sub a b => a.eval - b.eval
  | .mul a b => a.eval * b.eval
  | .div a b => a.eval / b.eval

/-- The AST the parser must produce for the rendering of `e`. -/
def astOf : AExp → ASTNode
  | .lit n => .numNode (.i32 n)
  | .add a b => .binOpNode (astOf a) (astOf b) .plus
  | .sub a b => .binOpNode (astOf a) (astOf b) .minus
  | .mul a b => .binOpNode (astOf a) (astOf b) .asterisk
  | .div a b => .binOpNode (astOf a) (astOf b) .floatDiv

/-- The tagged value the interpreter produces for `astOf e`: a bare literal
stays `I32`; any arithmetic node yields `F32` of the mathematical value. -/
def valOf : AExp → BuiltinNumTypes
  | .lit n => .i32 n
  | e => .f32 e.eval

/-- Fuel sufficient for the interpreter to evaluate `astOf e`. -/
def evalFuelA : AExp → Nat
  | .lit _ => 1
  | .add a b => 1 + max (evalFuelA a) (evalFuelA b)
  | .sub a b => 1 + max (evalFuelA a) (evalFuelA b)
  | .mul a b => 1 + max (evalFuelA a) (evalFuelA b)
  | .div a b => 1 + max (evalFuelA a) (evalFuelA b)

/-- Renderings of `e` at the three precedence levels, as one structural
function: `(expr form, term form, factor form)`.  An `add`/`sub` is its own
expr form but must be parenthesised in term or factor position; a `mul`/`div`
is its own expr and term form but parenthesised in factor position; a literal
needs no parentheses anywhere. -/
def printAll : AExp → List Token × List Token × List Token
  | .lit v => ([.integerConst v], [.integerConst v], [.integerConst v])
  | .add a b =>
    let e := (printAll a).1 ++ [.plus] ++ (printAll b).2.1
    (e, .lParenthesis :: (e ++ [.rParenthesis]), .lParenthesis :: (e ++ [.rParenthesis]))
  | .sub a b =>
    let e := (printAll a).1 ++ [.minus] ++ (printAll b).2.1
    (e, .lParenthesis :: (e ++ [.rParenthesis]), .lParenthesis :: (e ++ [.rParenthesis]))
  | .mul a b =>
    let t := (printAll a).2.1 ++ [.asterisk] ++ (printAll b).2.2
    (t, t, .lParenthesis :: (t ++ [.rParenthesis]))
  | .div a b =>
    let t := (printAll a).2.1 ++ [.floatDiv] ++ (printAll b).2.2
    (t, t, .lParenthesis :: (t ++ [.rParenthesis]))

/-- Expr-level rendering. -/
def printE (e : AExp) : List Token := (printAll e).1

/-- Term-level rendering. -/
def printT (e : AExp) : List Token := (printAll e).2.1

/-- Factor-level rendering. -/
def printF (e : AExp) : List Token := (printAll e).2.2

/-- Leftmost term of an expr-level `+ -` chain. -/
def efirst : AExp → AExp
  | .add a _ => efirst a
  | .sub a _ => efirst a
  | e => e

/-- The `(operator, operand)` tail of an expr-level `+ -` chain, in the order
the parser's accumulation loop consumes it. -/
def espine : AExp → List (Token × AExp)
  | .add a b => espine a ++ [(.plus, b)]
  | .sub a b => espine a ++ [(.minus, b)]
  | _ => []

/-- Leftmost factor of a term-level `* /` chain. -/
def tfirst : AExp → AExp
  | .mul a _ => tfirst a
  | .div a _ => tfirst a
  | e => e

/-- The `(operator, operand)` tail of a term-level `* /` chain. -/
def tspine : AExp → List (Token × AExp)
  | .mul a b => tspine a ++ [(.asterisk, b)]
  | .div a b => tspine a ++ [(.floatDiv, b)]
  | _ => []

/-- Rendering of a term-level spine tail: each operator followed by the
factor form of its operand. -/
def renderT : List (Token × AExp) → List Token
  | [] => []
  | (op, b) :: l => op :: (printF b ++ renderT l)

/-- Rendering of an expr-level spine tail: each operator followed by the term
form of its operand. -/
def renderE : List (Token × AExp) → List Token
  | [] => []
  | (op, b) :: l => op :: (printT b ++ renderE l)

/-- The token the parser's lookahead will hold when the remaining input is
`k` (`Eof` past the end, matching the lexer's repeatedly-returnable EOF). -/
def tokHead : List Token → Token
  | [] => .eof
  | t :: _ => t

/-- `Parser::factor` parses the factor-level rendering of `e` and leaves
exactly the continuation. -/
def FactorOK (e : AExp) : Prop :=
  ∀ (k : List Token) (n : Nat), 3 * (printF e).length ≤ n →
    parseAux n (mkPState (printF e ++ k)) .factor = .ok (astOf e) (mkPState k)

/-- `Parser::term` parses the term-level rendering of `e` whenever the
continuation does not begin with a term-level operator. -/
def TermOK (e : AExp) : Prop :=
  ∀ (k : List Token) (n : Nat), 3 * (printT e).length + 1 ≤ n →
    tokHead k ≠ .asterisk → tokHead k ≠ .floatDiv → tokHead k ≠ .integerDiv →
    parseAux n (mkPState (printT e ++ k)) .term = .ok (astOf e) (mkPState k)

/-- `Parser::expr` parses the expr-level rendering of `e` whenever the
continuation does not begin with any arithmetic operator. -/
def ExprOK (e : AExp) : Prop :=
  ∀ (k : List Token) (n : Nat), 3 * (printE e).length + 2 ≤ n →
    tokHead k ≠ .asterisk → tokHead k ≠ .floatDiv → tokHead k ≠ .integerDiv →
    tokHead k ≠ .plus → tokHead k ≠ .minus →
    parseAux n (mkPState (printE e ++ k)) .expr = .ok (astOf e) (mkPState k)

/-- A block with no declarations and a single `NoOp` statement. -/
def trivialBlock : ASTNode := .block [] (.compound [.noOp])

/-- A program whose only statement is a procedure call with an empty resolver
slot (semantic analysis skipped). -/
def emptySlotCallProgram : ASTNode :=
  .programNode "main" (.block [] (.compound [.procedureCall "p" [] none]))

/-- A program declaring the same procedure name `p` twice in the same (global)
scope, each with the trivial body. -/
def dupProcProgram : ASTNode :=
  .programNode "main"
    (.block [.procedureDecl "p" [] trivialBlock, .procedureDecl "p" [] trivialBlock]
      (.compound [.noOp]))

/-- A program declaring the same variable name `x` twice in the same scope. -/
def dupVarProgram : ASTNode :=
  .programNode "main"
    (.block [.varDecl (.var "x") (.typeNode "INTEGER"), .varDecl (.var "x") (.typeNode "REAL")]
      (.compound [.noOp]))

/-- A procedure whose single parameter shares the procedure's own name, and
whose body calls the procedure (a recursive call, with matching arity). -/
def shadowProgram : ASTNode :=
  .programNode "main"
    (.block
      [.procedureDecl "p" [.param (.var "p") (.typeNode "INTEGER")]
        (.block [] (.compound [.procedureCall "p" [.numNode (.i32 1)] none]))]
      (.compound [.noOp]))

/-- A procedure `q(x)` whose body calls `q(1)` recursively. -/
def recProgram : ASTNode :=
  .programNode "main"
    (.block
      [.procedureDecl "q" [.param (.var "x") (.typeNode "INTEGER")]
        (.block [] (.compound [.procedureCall "q" [.numNode (.i32 1)] none]))]
      (.compound [.noOp]))

/-! ## Theorems -/

theorem printE_add (a b : AExp) : printE (.add a b) = printE a ++ [.plus] ++ printT b := rfl

theorem printE_sub (a b : AExp) : printE (.sub a b) = printE a ++ [.minus] ++ printT b := rfl

theorem printT_mul (a b : AExp) :
    printT (.mul a b) = printT a ++ [.asterisk] ++ printF b := rfl

theorem printT_div (a b : AExp) :
    printT (.div a b) = printT a ++ [.floatDiv] ++ printF b := rfl

theorem printE_mul (a b : AExp) : printE (.mul a b) = printT (.mul a b) := rfl

theorem printE_div (a b : AExp) : printE (.div a b) = printT (.div a b) := rfl

theorem printE_lit (v : Nat) : printE (.lit v) = [.integerConst v] := rfl

theorem printT_lit (v : Nat) : printT (.lit v) = [.integerConst v] := rfl

theorem printF_lit (v : Nat) : printF (.lit v) = [.integerConst v] := rfl

theorem printT_add (a b : AExp) :
    printT (.add a b) = .lParenthesis :: (printE (.add a b) ++ [.rParenthesis]) := rfl

theorem printT_sub (a b : AExp) :
    printT (.sub a b) = .lParenthesis :: (printE (.sub a b) ++ [.rParenthesis]) := rfl

theorem printF_add (a b : AExp) :
    printF (.add a b) = .lParenthesis :: (printE (.add a b) ++ [.rParenthesis]) := rfl

theorem printF_sub (a b : AExp) :
    printF (.sub a b) = .lParenthesis :: (printE (.sub a b) ++ [.rParenthesis]) := rfl

theorem printF_mul (a b : AExp) :
    printF (.mul a b) = .lParenthesis :: (printE (.mul a b) ++ [.rParenthesis]) := rfl

theorem printF_div (a b : AExp) :
    printF (.div a b) = .lParenthesis :: (printE (.div a b) ++ [.rParenthesis]) := rfl

theorem renderT_append (l1 l2 : List (Token × AExp)) :
    renderT (l1 ++ l2) = renderT l1 ++ renderT l2 := by
  induction l1 with
  | nil => simp [renderT]
  | cons p l ih =>
    obtain ⟨op, b⟩ := p
    simp [renderT, ih]

theorem renderE_append (l1 l2 : List (Token × AExp)) :
    renderE (l1 ++ l2) = renderE l1 ++ renderE l2 := by
  induction l1 with
  | nil => simp [renderE]
  | cons p l ih =>
    obtain ⟨op, b⟩ := p
    simp [renderE, ih]

theorem printT_decomp (e : AExp) :
    printT e = printF (tfirst e) ++ renderT (tspine e) := by
  induction e with
  | lit v => simp [printT_lit, printF_lit, tfirst, tspine, renderT]
  | add a b iha ihb => simp [printT_add, printF_add, tfirst, tspine, renderT]
  | sub a b iha ihb => simp [printT_sub, printF_sub, tfirst, tspine, renderT]
  | mul a b iha ihb =>
    simp [printT_mul, tfirst, tspine, renderT_append, renderT, iha]
  | div a b iha ihb =>
    simp [printT_div, tfirst, tspine, renderT_append, renderT, iha]

theorem printE_decomp (e : AExp) :
    printE e = printT (efirst e) ++ renderE (espine e) := by
  induction e with
  | lit v => simp [printE_lit, printT_lit, efirst, espine, renderE]
  | add a b iha ihb => simp [printE_add, efirst, espine, renderE_append, renderE, iha]
  | sub a b iha ihb => simp [printE_sub, efirst, espine, renderE_append, renderE, iha]
  | mul a b iha ihb => simp [printE_mul, efirst, espine, renderE]
  | div a b iha ihb => simp [printE_div, efirst, espine, renderE]

theorem astOf_tdecomp (e : AExp) :
    astOf e = (tspine e).foldl (fun acc p => .binOpNode acc (astOf p.2) p.1)
      (astOf (tfirst e)) := by
  induction e with
  | lit v => simp [tfirst, tspine]
  | add a b iha ihb => simp [tfirst, tspine]
  | sub a b iha ihb => simp [tfirst, tspine]
  | mul a b iha ihb => simp [astOf, tfirst, tspine, List.foldl_append, ← iha]
  | div a b iha ihb => simp [astOf, tfirst, tspine, List.foldl_append, ← iha]

theorem astOf_edecomp (e : AExp) :
    astOf e = (espine e).foldl (fun acc p => .binOpNode acc (astOf p.2) p.1)
      (astOf (efirst e)) := by
  induction e with
  | lit v => simp [efirst, espine]
  | add a b iha ihb => simp [astOf, efirst, espine, List.foldl_append, ← iha]
  | sub a b iha ihb => simp [astOf, efirst, espine, List.foldl_append, ← iha]
  | mul a b iha ihb => simp [efirst, espine]
  | div a b iha ihb => simp [efirst, espine]

theorem tspine_ops (e : AExp) :
    ∀ p ∈ tspine e, p.1 = Token.asterisk ∨ p.1 = Token.floatDiv := by
  induction e with
  | lit v => simp [tspine]
  | add a b iha ihb => simp [tspine]
  | sub a b iha ihb => simp [tspine]
  | mul a b iha ihb =>
    intro p hp
    simp only [tspine, List.mem_append, List.mem_singleton] at hp
    rcases hp with hp | hp
    · exact iha p hp
    · rw [hp]
      exact Or.inl rfl
  | div a b iha ihb =>
    intro p hp
    simp only [tspine, List.mem_append, List.mem_singleton] at hp
    rcases hp with hp | hp
    · exact iha p hp
    · rw [hp]
      exact Or.inr rfl

theorem espine_ops (e : AExp) :
    ∀ p ∈ espine e, p.1 = Token.plus ∨ p.1 = Token.minus := by
  induction e with
  | lit v => simp [espine]
  | mul a b iha ihb => simp [espine]
  | div a b iha ihb => simp [espine]
  | add a b iha ihb =>
    intro p hp
    simp only [espine, List.mem_append, List.mem_singleton] at hp
    rcases hp with hp | hp
    · exact iha p hp
    · rw [hp]
      exact Or.inl rfl
  | sub a b iha ihb =>
    intro p hp
    simp only [espine, List.mem_append, List.mem_singleton] at hp
    rcases hp with hp | hp
    · exact iha p hp
    · rw [hp]
      exact Or.inr rfl

theorem printF_length_pos (e : AExp) : 0 < (printF e).length := by
  cases e <;> simp [printF_lit, printF_add, printF_sub, printF_mul, printF_div]

theorem printT_length_pos (e : AExp) : 0 < (printT e).length := by
  cases e <;> simp [printT_lit, printT_add, printT_sub, printT_mul, printT_div]

theorem renderT_member_le (l : List (Token × AExp)) (p : Token × AExp) (hp : p ∈ l) :
    (printF p.2).length + 1 ≤ (renderT l).length := by
  induction l with
  | nil => simp at hp
  | cons q t ih =>
    obtain ⟨op, b⟩ := q
    rcases List.mem_cons.mp hp with hq | hq
    · rw [hq]
      simp [renderT]
    · have := ih hq
      simp only [renderT, List.length_cons, List.length_append]
      omega

theorem renderE_member_le (l : List (Token × AExp)) (p : Token × AExp) (hp : p ∈ l) :
    (printT p.2).length + 1 ≤ (renderE l).length := by
  induction l with
  | nil => simp at hp
  | cons q t ih =>
    obtain ⟨op, b⟩ := q
    rcases List.mem_cons.mp hp with hq | hq
    · rw [hq]
      simp [renderE]
    · have := ih hq
      simp only [renderE, List.length_cons, List.length_append]
      omega

theorem current_mk (k : List Token) : (mkPState k).current_token = tokHead k := by
  cases k <;> rfl

theorem advance_mk (t : Token) (ts : List Token) :
    (PState.mk t ts).advance = mkPState ts := by
  cases ts <;> rfl

theorem mkPState_cons (t : Token) (ts : List Token) : mkPState (t :: ts) = ⟨t, ts⟩ := rfl

theorem termLoop_stop (acc : ASTNode) (k : List Token) (n : Nat)
    (h1 : tokHead k ≠ .asterisk) (h2 : tokHead k ≠ .floatDiv)
    (h3 : tokHead k ≠ .integerDiv) :
    parseAux (n + 1) (mkPState k) (.termLoop acc) = .ok acc (mkPState k) := by
  cases k with
  | nil => rfl
  | cons t ts =>
    simp only [tokHead] at h1 h2 h3
    cases t
    case asterisk => exact absurd rfl h1
    case floatDiv => exact absurd rfl h2
    case integerDiv => exact absurd rfl h3
    all_goals rfl

theorem exprLoop_stop (acc : ASTNode) (k : List Token) (n : Nat)
    (h1 : tokHead k ≠ .plus) (h2 : tokHead k ≠ .minus) :
    parseAux (n + 1) (mkPState k) (.exprLoop acc) = .ok acc (mkPState k) := by
  cases k with
  | nil => rfl
  | cons t ts =>
    simp only [tokHead] at h1 h2
    cases t
    case plus => exact absurd rfl h1
    case minus => exact absurd rfl h2
    all_goals rfl

theorem termLoop_append :
    ∀ (l : List (Token × AExp)) (acc : ASTNode) (k : List Token) (n : Nat),
      (∀ p ∈ l, p.1 = Token.asterisk ∨ p.1 = Token.floatDiv) →
      (∀ p ∈ l, FactorOK p.2) →
      3 * (renderT l).length + 1 ≤ n →
      tokHead k ≠ .asterisk → tokHead k ≠ .floatDiv → tokHead k ≠ .integerDiv →
      parseAux n (mkPState (renderT l ++ k)) (.termLoop acc) =
        .ok (l.foldl (fun acc p => ASTNode.binOpNode acc (astOf p.2) p.1) acc)
          (mkPState k) := by
  intro l
  induction l with
  | nil =>
    intro acc k n hops hF hn h1 h2 h3
    obtain ⟨m, rfl⟩ : ∃ m, n = m + 1 := ⟨n - 1, by omega⟩
    simpa [renderT] using termLoop_stop acc k m h1 h2 h3
  | cons p l ih =>
    obtain ⟨op, b⟩ := p
    intro acc k n hops hF hn h1 h2 h3
    have hlen : (renderT ((op, b) :: l)).length =
        1 + (printF b).length + (renderT l).length := by
      simp only [renderT, List.length_cons, List.length_append]
      omega
    obtain ⟨m, rfl⟩ : ∃ m, n = m + 1 := ⟨n - 1, by omega⟩
    have hFok : FactorOK b := hF (op, b) (by simp)
    have hFb := hFok (renderT l ++ k) m (by omega)
    have hrest : mkPState (renderT ((op, b) :: l) ++ k) =
        ⟨op, printF b ++ (renderT l ++ k)⟩ := by
      simp [renderT, mkPState, List.append_assoc]
    have hih := ih (ASTNode.binOpNode acc (astOf b) op) k m
      (fun q hq => hops q (by simp [hq])) (fun q hq => hF q (by simp [hq]))
      (by omega) h1 h2 h3
    rw [hrest]
    rcases hops (op, b) (by simp) with hop | hop
    · replace hop : op = Token.asterisk := hop
      subst hop
      simp [parseAux, eat, Token.kindEq, advance_mk, hFb, hih]
    · replace hop : op = Token.floatDiv := hop
      subst hop
      simp [parseAux, eat, Token.kindEq, advance_mk, hFb, hih]

theorem exprLoop_append :
    ∀ (l : List (Token × AExp)) (acc : ASTNode) (k : List Token) (n : Nat),
      (∀ p ∈ l, p.1 = Token.plus ∨ p.1 = Token.minus) →
      (∀ p ∈ l, TermOK p.2) →
      3 * (renderE l).length + 1 ≤ n →
      tokHead k ≠ .asterisk → tokHead k ≠ .floatDiv → tokHead k ≠ .integerDiv →
      tokHead k ≠ .plus → tokHead k ≠ .minus →
      parseAux n (mkPState (renderE l ++ k)) (.exprLoop acc) =
        .ok (l.foldl (fun acc p => ASTNode.binOpNode acc (astOf p.2) p.1) acc)
          (mkPState k) := by
  intro l
  induction l with
  | nil =>
    intro acc k n hops hT hn h1 h2 h3 h4 h5
    obtain ⟨m, rfl⟩ : ∃ m, n = m + 1 := ⟨n - 1, by omega⟩
    simpa [renderE] using exprLoop_stop acc k m h4 h5
  | cons p l ih =>
    obtain ⟨op, b⟩ := p
    intro acc k n hops hT hn h1 h2 h3 h4 h5
    have hlen : (renderE ((op, b) :: l)).length =
        1 + (printT b).length + (renderE l).length := by
      simp only [renderE, List.length_cons, List.length_append]
      omega
    obtain ⟨m, rfl⟩ : ∃ m, n = m + 1 := ⟨n - 1, by omega⟩
    have hheads : tokHead (renderE l ++ k) ≠ .asterisk ∧
        tokHead (renderE l ++ k) ≠ .floatDiv ∧ tokHead (renderE l ++ k) ≠ .integerDiv := by
      cases l with
      | nil => exact ⟨by simpa [renderE] using h1, by simpa [renderE] using h2,
          by simpa [renderE] using h3⟩
      | cons q t =>
        obtain ⟨opq, bq⟩ := q
        rcases hops (opq, bq) (by simp) with hq | hq
        · replace hq : opq = Token.plus := hq
          subst hq
          simp [renderE, tokHead]
        · replace hq : opq = Token.minus := hq
          subst hq
          simp [renderE, tokHead]
    have hTok : TermOK b := hT (op, b) (by simp)
    have hTb := hTok (renderE l ++ k) m (by omega)
      hheads.1 hheads.2.1 hheads.2.2
    have hrest : mkPState (renderE ((op, b) :: l) ++ k) =
        ⟨op, printT b ++ (renderE l ++ k)⟩ := by
      simp [renderE, mkPState, List.append_assoc]
    have hih := ih (ASTNode.binOpNode acc (astOf b) op) k m
      (fun q hq => hops q (by simp [hq])) (fun q hq => hT q (by simp [hq]))
      (by omega) h1 h2 h3 h4 h5
    rw [hrest]
    rcases hops (op, b) (by simp) with hop | hop
    · replace hop : op = Token.plus := hop
      subst hop
      simp [parseAux, eat, Token.kindEq, advance_mk, hTb, hih]
    · replace hop : op = Token.minus := hop
      subst hop
      simp [parseAux, eat, Token.kindEq, advance_mk, hTb, hih]

theorem tokHead_renderE_ne_term (l : List (Token × AExp)) (k : List Token)
    (hops : ∀ p ∈ l, p.1 = Token.plus ∨ p.1 = Token.minus)
    (h1 : tokHead k ≠ .asterisk) (h2 : tokHead k ≠ .floatDiv)
    (h3 : tokHead k ≠ .integerDiv) :
    tokHead (renderE l ++ k) ≠ .asterisk ∧ tokHead (renderE l ++ k) ≠ .floatDiv ∧
      tokHead (renderE l ++ k) ≠ .integerDiv := by
  cases l with
  | nil => exact ⟨by simpa [renderE] using h1, by simpa [renderE] using h2,
      by simpa [renderE] using h3⟩
  | cons q t =>
    obtain ⟨opq, bq⟩ := q
    rcases hops (opq, bq) (by simp) with hq | hq
    · replace hq : opq = Token.plus := hq
      subst hq
      simp [renderE, tokHead]
    · replace hq : opq = Token.minus := hq
      subst hq
      simp [renderE, tokHead]

theorem factor_paren (e : AExp) (hE : ExprOK e) :
    ∀ (k : List Token) (n : Nat), 3 * (printE e).length + 6 ≤ n →
      parseAux n
          (mkPState ((Token.lParenthesis :: (printE e ++ [Token.rParenthesis])) ++ k))
          .factor =
        .ok (astOf e) (mkPState k) := by
  intro k n hn
  obtain ⟨m, rfl⟩ : ∃ x, n = x + 1 := ⟨n - 1, by omega⟩
  have h1 : mkPState ((Token.lParenthesis :: (printE e ++ [Token.rParenthesis])) ++ k) =
      ⟨.lParenthesis, printE e ++ (Token.rParenthesis :: k)⟩ := by
    simp [mkPState, List.append_assoc]
  rw [h1]
  have hExp := hE (Token.rParenthesis :: k) m (by omega) (by simp [tokHead])
    (by simp [tokHead]) (by simp [tokHead]) (by simp [tokHead]) (by simp [tokHead])
  simp [parseAux, eat, Token.kindEq, advance_mk, hExp, mkPState_cons]

/-- Joint correctness of `factor` / `term` / `expr` on minimally-parenthesised
renderings, by strong induction on the measure `3 * rendered length + rank`
(rank 0 factor, 1 term, 2 expr): the parser rebuilds exactly the
left-associated, precedence-respecting tree `astOf e`. -/
theorem parse_print_all : ∀ (m : Nat) (e : AExp),
    (3 * (printF e).length ≤ m → FactorOK e) ∧
    (3 * (printT e).length + 1 ≤ m → TermOK e) ∧
    (3 * (printE e).length + 2 ≤ m → ExprOK e) := by
  intro m
  induction m using Nat.strong_induction_on with
  | _ m ih =>
    intro e
    have hTd := printT_decomp e
    have hEd := printE_decomp e
    have hlenT : (printT e).length =
        (printF (tfirst e)).length + (renderT (tspine e)).length := by
      rw [hTd]; simp
    have hlenE : (printE e).length =
        (printT (efirst e)).length + (renderE (espine e)).length := by
      rw [hEd]; simp
    refine ⟨fun hm => ?_, fun hm => ?_, fun hm => ?_⟩
    · cases e with
      | lit v =>
        intro k n hn
        rw [printF_lit] at hn
        obtain ⟨n', rfl⟩ : ∃ x, n = x + 1 := ⟨n - 1, by simp at hn; omega⟩
        simp [printF_lit, parseAux, mkPState, eat, Token.kindEq, advance_mk, astOf]
      | add a b =>
        rw [printF_add] at hm
        simp only [List.length_cons, List.length_append] at hm
        have hE : ExprOK (.add a b) :=
          (ih (3 * (printE (.add a b)).length + 2) (by omega) (.add a b)).2.2 le_rfl
        intro k n hn
        rw [printF_add] at hn ⊢
        simp only [List.length_cons, List.length_append] at hn
        exact factor_paren (.add a b) hE k n (by omega)
      | sub a b =>
        rw [printF_sub] at hm
        simp only [List.length_cons, List.length_append] at hm
        have hE : ExprOK (.sub a b) :=
          (ih (3 * (printE (.sub a b)).length + 2) (by omega) (.sub a b)).2.2 le_rfl
        intro k n hn
        rw [printF_sub] at hn ⊢
        simp only [List.length_cons, List.length_append] at hn
        exact factor_paren (.sub a b) hE k n (by omega)
      | mul a b =>
        rw [printF_mul] at hm
        simp only [List.length_cons, List.length_append] at hm
        have hE : ExprOK (.mul a b) :=
          (ih (3 * (printE (.mul a b)).length + 2) (by omega) (.mul a b)).2.2 le_rfl
        intro k n hn
        rw [printF_mul] at hn ⊢
        simp only [List.length_cons, List.length_append] at hn
        exact factor_paren (.mul a b) hE k n (by omega)
      | div a b =>
        rw [printF_div] at hm
        simp only [List.length_cons, List.length_append] at hm
        have hE : ExprOK (.div a b) :=
          (ih (3 * (printE (.div a b)).length + 2) (by omega) (.div a b)).2.2 le_rfl
        intro k n hn
        rw [printF_div] at hn ⊢
        simp only [List.length_cons, List.length_append] at hn
        exact factor_paren (.div a b) hE k n (by omega)
    · intro k n hn hk1 hk2 hk3
      obtain ⟨n', rfl⟩ : ∃ x, n = x + 1 := ⟨n - 1, by omega⟩
      have hFf : FactorOK (tfirst e) :=
        (ih (3 * (printF (tfirst e)).length) (by omega) (tfirst e)).1 le_rfl
      have hmemF : ∀ p ∈ tspine e, FactorOK p.2 := fun p hp =>
        (ih (3 * (printF p.2).length)
          (by have := renderT_member_le (tspine e) p hp; omega) p.2).1 le_rfl
      show parseAux (n' + 1) (mkPState (printT e ++ k)) .term = _
      rw [hTd, List.append_assoc]
      simp only [parseAux]
      have h1 := hFf (renderT (tspine e) ++ k) n' (by omega)
      simp only [h1]
      have hpos := printF_length_pos (tfirst e)
      have h2 := termLoop_append (tspine e) (astOf (tfirst e)) k n' (tspine_ops e)
        hmemF (by omega) hk1 hk2 hk3
      rw [h2, ← astOf_tdecomp e]
    · intro k n hn hk1 hk2 hk3 hk4 hk5
      obtain ⟨n', rfl⟩ : ∃ x, n = x + 1 := ⟨n - 1, by omega⟩
      have hTf : TermOK (efirst e) :=
        (ih (3 * (printT (efirst e)).length + 1) (by omega) (efirst e)).2.1 le_rfl
      have hmemT : ∀ p ∈ espine e, TermOK p.2 := fun p hp =>
        (ih (3 * (printT p.2).length + 1)
          (by have := renderE_member_le (espine e) p hp; omega) p.2).2.1 le_rfl
      have hheads := tokHead_renderE_ne_term (espine e) k (espine_ops e) hk1 hk2 hk3
      show parseAux (n' + 1) (mkPState (printE e ++ k)) .expr = _
      rw [hEd, List.append_assoc]
      simp only [parseAux]
      have h1 := hTf (renderE (espine e) ++ k) n' (by omega) hheads.1 hheads.2.1
        hheads.2.2
      simp only [h1]
      have hpos := printT_length_pos (efirst e)
      have h2 := exprLoop_append (espine e) (astOf (efirst e)) k n' (espine_ops e)
        hmemT (by omega) hk1 hk2 hk3 hk4 hk5
      rw [h2, ← astOf_edecomp e]

theorem stackSetTop_length (st : Interpreter) (name : String) (v : BuiltinNumTypes) :
    (stackSetTop st name v).call_stack.length = st.call_stack.length := by
  cases h : st.call_stack <;> simp [stackSetTop, h]

theorem stackPush_length (st : Interpreter) (ar : ActivationRecord) :
    (stackPush st ar).call_stack.length = st.call_stack.length + 1 := rfl

theorem stackPop_length (st : Interpreter) :
    (stackPop st).call_stack.length = st.call_stack.length - 1 := by
  cases h : st.call_stack <;> simp [stackPop, h]

theorem call_stack_ne_nil_of_length_eq {st st' : Interpreter}
    (h : st'.call_stack.length = st.call_stack.length)
    (hne : st.call_stack ≠ []) : st'.call_stack ≠ [] := by
  intro hcon
  rw [hcon] at h
  simp only [List.length_nil] at h
  exact hne (List.length_eq_zero.mp h.symm)

/-- Central call-stack accounting invariant of the tree walk, by induction on
fuel: (1) a successful visit restores the stack to its entry depth (every
frame pushed on a completed path is popped); (2) an erroring visit never
shrinks the stack below its entry depth, but can leave it deeper (the
`UndefinedFunction` early return and argument-binding `?` returns in
`visit_procedure_call_node` skip the pop); (3) starting from a non-empty
stack, no `peek().unwrap()` panic is reachable. -/
theorem visitAux_stack_invariant : ∀ (n : Nat) (st : Interpreter) (task : VisitTask),
    (∀ v st', visitAux n st task = .ok v st' →
      st'.call_stack.length = st.call_stack.length) ∧
    (∀ e st', visitAux n st task = .err e st' →
      st.call_stack.length ≤ st'.call_stack.length) ∧
    (st.call_stack ≠ [] → visitAux n st task ≠ .panic .unwrapEmptyCallStack) := by
  intro n
  induction n with
  | zero =>
    intro st task
    refine ⟨fun v st' h => ?_, fun e st' h => ?_, fun hne h => ?_⟩ <;> simp [visitAux] at h
  | succ n ih =>
    intro st task
    cases task with
    | stmts l =>
      cases l with
      | nil =>
        refine ⟨fun v st' h => ?_, fun e st' h => ?_, fun hne h => ?_⟩ <;>
          simp only [visitAux] at h
        · injection h with hv hst
          rw [hst]
        · exact absurd h (by simp)
        · exact absurd h (by simp)
      | cons c cs =>
        obtain ⟨ihC1, ihC2, ihC3⟩ := ih st (.node c)
        cases hC : visitAux n st (.node c) with
        | ok v1 st1 =>
          have hlen1 := ihC1 v1 st1 hC
          obtain ⟨ihS1, ihS2, ihS3⟩ := ih st1 (.stmts cs)
          refine ⟨fun v st' h => ?_, fun e st' h => ?_, fun hne h => ?_⟩ <;>
            simp only [visitAux, hC] at h
          · rw [ihS1 v st' h, hlen1]
          · have := ihS2 e st' h
            omega
          · exact ihS3 (call_stack_ne_nil_of_length_eq hlen1 hne) h
        | err e1 st1 =>
          have hlen1 := ihC2 e1 st1 hC
          refine ⟨fun v st' h => ?_, fun e st' h => ?_, fun hne h => ?_⟩ <;>
            simp only [visitAux, hC] at h
          · exact absurd h (by simp)
          · injection h with he hst
            rw [← hst]
            exact hlen1
          · exact absurd h (by simp)
        | panic pk =>
          refine ⟨fun v st' h => ?_, fun e st' h => ?_, fun hne h => ?_⟩ <;>
            simp only [visitAux, hC] at h
          · exact absurd h (by simp)
          · exact absurd h (by simp)
          · injection h with hk
            exact ihC3 hne (by rw [hC, hk])
        | fuelOut =>
          refine ⟨fun v st' h => ?_, fun e st' h => ?_, fun hne h => ?_⟩ <;>
            simp only [visitAux, hC] at h <;> exact absurd h (by simp)
    | binds l =>
      cases l with
      | nil =>
        refine ⟨fun v st' h => ?_, fun e st' h => ?_, fun hne h => ?_⟩ <;>
          simp only [visitAux] at h
        · injection h with hv hst
          rw [hst]
        · exact absurd h (by simp)
        · exact absurd h (by simp)
      | cons pa rest =>
        obtain ⟨p, a⟩ := pa
        obtain ⟨ihA1, ihA2, ihA3⟩ := ih st (.node a)
        cases hA : visitAux n st (.node a) with
        | ok v1 st1 =>
          have hlen1 := ihA1 v1 st1 hA
          cases v1 with
          | none =>
            refine ⟨fun v st' h => ?_, fun e st' h => ?_, fun hne h => ?_⟩ <;>
              simp only [visitAux, hA] at h
            · exact absurd h (by simp)
            · injection h with he hst
              rw [← hst]
              omega
            · exact absurd h (by simp)
          | some w =>
            cases hst1 : st1.call_stack with
            | nil =>
              refine ⟨fun v st' h => ?_, fun e st' h => ?_, fun hne h => ?_⟩ <;>
                simp only [visitAux, hA, hst1] at h
              · exact absurd h (by simp)
              · exact absurd h (by simp)
              · exact absurd hst1 (call_stack_ne_nil_of_length_eq hlen1 hne)
            | cons top restk =>
              obtain ⟨ihB1, ihB2, ihB3⟩ := ih (stackSetTop st1 p w) (.binds rest)
              have hlen2 : (stackSetTop st1 p w).call_stack.length = st.call_stack.length := by
                rw [stackSetTop_length, hlen1]
              refine ⟨fun v st' h => ?_, fun e st' h => ?_, fun hne h => ?_⟩ <;>
                simp only [visitAux, hA, hst1] at h
              · rw [ihB1 v st' h, hlen2]
              · have := ihB2 e st' h
                omega
              · exact ihB3 (call_stack_ne_nil_of_length_eq hlen2 hne) h
        | err e1 st1 =>
          have hlen1 := ihA2 e1 st1 hA
          refine ⟨fun v st' h => ?_, fun e st' h => ?_, fun hne h => ?_⟩ <;>
            simp only [visitAux, hA] at h
          · exact absurd h (by simp)
          · injection h with he hst
            rw [← hst]
            exact hlen1
          · exact absurd h (by simp)
        | panic pk =>
          refine ⟨fun v st' h => ?_, fun e st' h => ?_, fun hne h => ?_⟩ <;>
            simp only [visitAux, hA] at h
          · exact absurd h (by simp)
          · exact absurd h (by simp)
          · injection h with hk
            exact ihA3 hne (by rw [hA, hk])
        | fuelOut =>
          refine ⟨fun v st' h => ?_, fun e st' h => ?_, fun hne h => ?_⟩ <;>
            simp only [visitAux, hA] at h <;> exact absurd h (by simp)
    | node nd =>
      cases nd with
      | numNode w =>
        refine ⟨fun v st' h => ?_, fun e st' h => ?_, fun hne h => ?_⟩ <;>
          simp only [visitAux] at h
        · injection h with hv hst
          rw [hst]
        · exact absurd h (by simp)
        · exact absurd h (by simp)
      | noOp =>
        refine ⟨fun v st' h => ?_, fun e st' h => ?_, fun hne h => ?_⟩ <;>
          simp only [visitAux] at h
        · injection h with hv hst
          rw [hst]
        · exact absurd h (by simp)
        · exact absurd h (by simp)
      | varDecl a b =>
        refine ⟨fun v st' h => ?_, fun e st' h => ?_, fun hne h => ?_⟩ <;>
          simp only [visitAux] at h
        · injection h with hv hst
          rw [hst]
        · exact absurd h (by simp)
        · exact absurd h (by simp)
      | typeNode a =>
        refine ⟨fun v st' h => ?_, fun e st' h => ?_, fun hne h => ?_⟩ <;>
          simp only [visitAux] at h
        · injection h with hv hst
          rw [hst]
        · exact absurd h (by simp)
        · exact absurd h (by simp)
      | procedureDecl a b c =>
        refine ⟨fun v st' h => ?_, fun e st' h => ?_, fun hne h => ?_⟩ <;>
          simp only [visitAux] at h
        · injection h with hv hst
          rw [hst]
        · exact absurd h (by simp)
        · exact absurd h (by simp)
      | param a b =>
        refine ⟨fun v st' h => ?_, fun e st' h => ?_, fun hne h => ?_⟩ <;>
          simp only [visitAux] at h
        · injection h with hv hst
          rw [hst]
        · exact absurd h (by simp)
        · exact absurd h (by simp)
      | var name =>
        cases hcs : st.call_stack with
        | nil =>
          refine ⟨fun v st' h => ?_, fun e st' h => ?_, fun hne h => ?_⟩ <;>
            simp only [visitAux, hcs] at h
          · exact absurd h (by simp)
          · exact absurd h (by simp)
          · exact hne rfl
        | cons ar rest =>
          cases hget : ar.get name with
          | some w =>
            refine ⟨fun v st' h => ?_, fun e st' h => ?_, fun hne h => ?_⟩ <;>
              simp only [visitAux, hcs, hget] at h
            · injection h with hv hst
              rw [← hst, hcs]
            · exact absurd h (by simp)
            · exact absurd h (by simp)
          | none =>
            refine ⟨fun v st' h => ?_, fun e st' h => ?_, fun hne h => ?_⟩ <;>
              simp only [visitAux, hcs, hget] at h
            · exact absurd h (by simp)
            · injection h with he hst
              rw [← hst, hcs]
            · exact absurd h (by simp)
      | compound children =>
        obtain ⟨ihS1, ihS2, ihS3⟩ := ih st (.stmts children)
        cases hS : visitAux n st (.stmts children) with
        | ok v1 st1 =>
          have hlen1 := ihS1 v1 st1 hS
          refine ⟨fun v st' h => ?_, fun e st' h => ?_, fun hne h => ?_⟩ <;>
            simp only [visitAux, hS] at h
          · injection h with hv hst
            rw [← hst, hlen1]
          · exact absurd h (by simp)
          · exact absurd h (by simp)
        | err e1 st1 =>
          have hlen1 := ihS2 e1 st1 hS
          refine ⟨fun v st' h => ?_, fun e st' h => ?_, fun hne h => ?_⟩ <;>
            simp only [visitAux, hS] at h
          · exact absurd h (by simp)
          · injection h with he hst
            rw [← hst]
            exact hlen1
          · exact absurd h (by simp)
        | panic pk =>
          refine ⟨fun v st' h => ?_, fun e st' h => ?_, fun hne h => ?_⟩ <;>
            simp only [visitAux, hS] at h
          · exact absurd h (by simp)
          · exact absurd h (by simp)
          · injection h with hk
            exact ihS3 hne (by rw [hS, hk])
        | fuelOut =>
          refine ⟨fun v st' h => ?_, fun e st' h => ?_, fun hne h => ?_⟩ <;>
            simp only [visitAux, hS] at h <;> exact absurd h (by simp)
      | unaryOpNode expr token =>
        obtain ⟨ihE1, ihE2, ihE3⟩ := ih st (.node expr)
        cases hE : visitAux n st (.node expr) with
        | ok v1 st1 =>
          have hlen1 := ihE1 v1 st1 hE
          cases v1 with
          | none =>
            refine ⟨fun v st' h => ?_, fun e st' h => ?_, fun hne h => ?_⟩ <;>
              simp only [visitAux, hE] at h
            · exact absurd h (by simp)
            · injection h with he hst
              rw [← hst]
              omega
            · exact absurd h (by simp)
          | some w =>
            refine ⟨fun v st' h => ?_, fun e st' h => ?_, fun hne h => ?_⟩ <;>
              simp only [visitAux, hE] at h <;> split at h
            · injection h with hv hst
              rw [← hst, hlen1]
            · injection h with hv hst
              rw [← hst, hlen1]
            · exact absurd h (by simp)
            · exact absurd h (by simp)
            · exact absurd h (by simp)
            · injection h with he hst
              rw [← hst]
              omega
            · exact absurd h (by simp)
            · exact absurd h (by simp)
            · exact absurd h (by simp)
        | err e1 st1 =>
          have hlen1 := ihE2 e1 st1 hE
          refine ⟨fun v st' h => ?_, fun e st' h => ?_, fun hne h => ?_⟩ <;>
            simp only [visitAux, hE] at h
          · exact absurd h (by simp)
          · injection h with he hst
            rw [← hst]
            exact hlen1
          · exact absurd h (by simp)
        | panic pk =>
          refine ⟨fun v st' h => ?_, fun e st' h => ?_, fun hne h => ?_⟩ <;>
            simp only [visitAux, hE] at h
          · exact absurd h (by simp)
          · exact absurd h (by simp)
          · injection h with hk
            exact ihE3 hne (by rw [hE, hk])
        | fuelOut =>
          refine ⟨fun v st' h => ?_, fun e st' h => ?_, fun hne h => ?_⟩ <;>
            simp only [visitAux, hE] at h <;> exact absurd h (by simp)
      | binOpNode left right op =>
        obtain ⟨ihL1, ihL2, ihL3⟩ := ih st (.node left)
        cases hL : visitAux n st (.node left) with
        | ok v1 st1 =>
          have hlen1 := ihL1 v1 st1 hL
          cases v1 with
          | none =>
            refine ⟨fun v st' h => ?_, fun e st' h => ?_, fun hne h => ?_⟩ <;>
              simp only [visitAux, hL] at h
            · exact absurd h (by simp)
            · injection h with he hst
              rw [← hst]
              omega
            · exact absurd h (by simp)
          | some lv =>
            obtain ⟨ihR1, ihR2, ihR3⟩ := ih st1 (.node right)
            cases hR : visitAux n st1 (.node right) with
            | ok v2 st2 =>
              have hlen2 := ihR1 v2 st2 hR
              cases v2 with
              | none =>
                refine ⟨fun v st' h => ?_, fun e st' h => ?_, fun hne h => ?_⟩ <;>
                  simp only [visitAux, hL, hR] at h
                · exact absurd h (by simp)
                · injection h with he hst
                  rw [← hst]
                  omega
                · exact absurd h (by simp)
              | some rv =>
                refine ⟨fun v st' h => ?_, fun e st' h => ?_, fun hne h => ?_⟩ <;>
                  simp only [visitAux, hL, hR] at h <;> split at h
                · injection h with hv hst
                  rw [← hst]
                  omega
                · injection h with hv hst
                  rw [← hst]
                  omega
                · injection h with hv hst
                  rw [← hst]
                  omega
                · injection h with hv hst
                  rw [← hst]
                  omega
                · split at h
                  · exact absurd h (by simp)
                  · split at h
                    · exact absurd h (by simp)
                    · injection h with hv hst
                      rw [← hst]
                      omega
                · exact absurd h (by simp)
                · exact absurd h (by simp)
                · exact absurd h (by simp)
                · exact absurd h (by simp)
                · exact absurd h (by simp)
                · split at h
                  · exact absurd h (by simp)
                  · split at h
                    · exact absurd h (by simp)
                    · exact absurd h (by simp)
                · injection h with he hst
                  rw [← hst]
                  omega
                · exact absurd h (by simp)
                · exact absurd h (by simp)
                · exact absurd h (by simp)
                · exact absurd h (by simp)
                · split at h
                  · exact absurd h (by simp)
                  · split at h
                    · exact absurd h (by simp)
                    · exact absurd h (by simp)
                · exact absurd h (by simp)
            | err e2 st2 =>
              have hlen2 := ihR2 e2 st2 hR
              refine ⟨fun v st' h => ?_, fun e st' h => ?_, fun hne h => ?_⟩ <;>
                simp only [visitAux, hL, hR] at h
              · exact absurd h (by simp)
              · injection h with he hst
                rw [← hst]
                omega
              · exact absurd h (by simp)
            | panic pk =>
              refine ⟨fun v st' h => ?_, fun e st' h => ?_, fun hne h => ?_⟩ <;>
                simp only [visitAux, hL, hR] at h
              · exact absurd h (by simp)
              · exact absurd h (by simp)
              · injection h with hk
                exact ihR3 (call_stack_ne_nil_of_length_eq hlen1 hne) (by rw [hR, hk])
            | fuelOut =>
              refine ⟨fun v st' h => ?_, fun e st' h => ?_, fun hne h => ?_⟩ <;>
                simp only [visitAux, hL, hR] at h <;> exact absurd h (by simp)
        | err e1 st1 =>
          have hlen1 := ihL2 e1 st1 hL
          refine ⟨fun v st' h => ?_, fun e st' h => ?_, fun hne h => ?_⟩ <;>
            simp only [visitAux, hL] at h
          · exact absurd h (by simp)
          · injection h with he hst
            rw [← hst]
            exact hlen1
          · exact absurd h (by simp)
        | panic pk =>
          refine ⟨fun v st' h => ?_, fun e st' h => ?_, fun hne h => ?_⟩ <;>
            simp only [visitAux, hL] at h
          · exact absurd h (by simp)
          · exact absurd h (by simp)
          · injection h with hk
            exact ihL3 hne (by rw [hL, hk])
        | fuelOut =>
          refine ⟨fun v st' h => ?_, fun e st' h => ?_, fun hne h => ?_⟩ <;>
            simp only [visitAux, hL] at h <;> exact absurd h (by simp)
      | assign left right =>
        cases left with
        | var name =>
          obtain ⟨ihR1, ihR2, ihR3⟩ := ih st (.node right)
          cases hR : visitAux n st (.node right) with
          | ok v1 st1 =>
            have hlen1 := ihR1 v1 st1 hR
            cases v1 with
            | none =>
              refine ⟨fun v st' h => ?_, fun e st' h => ?_, fun hne h => ?_⟩ <;>
                simp only [visitAux, hR] at h
              · exact absurd h (by simp)
              · injection h with he hst
                rw [← hst]
                omega
              · exact absurd h (by simp)
            | some w =>
              cases hst1 : st1.call_stack with
              | nil =>
                refine ⟨fun v st' h => ?_, fun e st' h => ?_, fun hne h => ?_⟩ <;>
                  simp only [visitAux, hR, hst1] at h
                · exact absurd h (by simp)
                · exact absurd h (by simp)
                · exact absurd hst1 (call_stack_ne_nil_of_length_eq hlen1 hne)
              | cons top restk =>
                refine ⟨fun v st' h => ?_, fun e st' h => ?_, fun hne h => ?_⟩ <;>
                  simp only [visitAux, hR, hst1] at h
                · injection h with hv hst
                  rw [← hst, stackSetTop_length, hlen1]
                · exact absurd h (by simp)
                · exact absurd h (by simp)
          | err e1 st1 =>
            have hlen1 := ihR2 e1 st1 hR
            refine ⟨fun v st' h => ?_, fun e st' h => ?_, fun hne h => ?_⟩ <;>
              simp only [visitAux, hR] at h
            · exact absurd h (by simp)
            · injection h with he hst
              rw [← hst]
              exact hlen1
            · exact absurd h (by simp)
          | panic pk =>
            refine ⟨fun v st' h => ?_, fun e st' h => ?_, fun hne h => ?_⟩ <;>
              simp only [visitAux, hR] at h
            · exact absurd h (by simp)
            · exact absurd h (by simp)
            · injection h with hk
              exact ihR3 hne (by rw [hR, hk])
          | fuelOut =>
            refine ⟨fun v st' h => ?_, fun e st' h => ?_, fun hne h => ?_⟩ <;>
              simp only [visitAux, hR] at h <;> exact absurd h (by simp)
        | programNode a b =>
          refine ⟨fun v st' h => ?_, fun e st' h => ?_, fun hne h => ?_⟩ <;>
            simp only [visitAux] at h
          · exact absurd h (by simp)
          · injection h with he hst
            rw [hst]
          · exact absurd h (by simp)
        | block a b =>
          refine ⟨fun v st' h => ?_, fun e st' h => ?_, fun hne h => ?_⟩ <;>
            simp only [visitAux] at h
          · exact absurd h (by simp)
          · injection h with he hst
            rw [hst]
          · exact absurd h (by simp)
        | procedureDecl a b c =>
          refine ⟨fun v st' h => ?_, fun e st' h => ?_, fun hne h => ?_⟩ <;>
            simp only [visitAux] at h
          · exact absurd h (by simp)
          · injection h with he hst
            rw [hst]
          · exact absurd h (by simp)
        | param a b =>
          refine ⟨fun v st' h => ?_, fun e st' h => ?_, fun hne h => ?_⟩ <;>
            simp only [visitAux] at h
          · exact absurd h (by simp)
          · injection h with he hst
            rw [hst]
          · exact absurd h (by simp)
        | varDecl a b =>
          refine ⟨fun v st' h => ?_, fun e st' h => ?_, fun hne h => ?_⟩ <;>
            simp only [visitAux] at h
          · exact absurd h (by simp)
          · injection h with he hst
            rw [hst]
          · exact absurd h (by simp)
        | typeNode a =>
          refine ⟨fun v st' h => ?_, fun e st' h => ?_, fun hne h => ?_⟩ <;>
            simp only [visitAux] at h
          · exact absurd h (by simp)
          · injection h with he hst
            rw [hst]
          · exact absurd h (by simp)
        | compound a =>
          refine ⟨fun v st' h => ?_, fun e st' h => ?_, fun hne h => ?_⟩ <;>
            simp only [visitAux] at h
          · exact absurd h (by simp)
          · injection h with he hst
            rw [hst]
          · exact absurd h (by simp)
        | assign a b =>
          refine ⟨fun v st' h => ?_, fun e st' h => ?_, fun hne h => ?_⟩ <;>
            simp only [visitAux] at h
          · exact absurd h (by simp)
          · injection h with he hst
            rw [hst]
          · exact absurd h (by simp)
        | noOp =>
          refine ⟨fun v st' h => ?_, fun e st' h => ?_, fun hne h => ?_⟩ <;>
            simp only [visitAux] at h
          · exact absurd h (by simp)
          · injection h with he hst
            rw [hst]
          · exact absurd h (by simp)
        | unaryOpNode a b =>
          refine ⟨fun v st' h => ?_, fun e st' h => ?_, fun hne h => ?_⟩ <;>
            simp only [visitAux] at h
          · exact absurd h (by simp)
          · injection h with he hst
            rw [hst]
          · exact absurd h (by simp)
        | binOpNode a b c =>
          refine ⟨fun v st' h => ?_, fun e st' h => ?_, fun hne h => ?_⟩ <;>
            simp only [visitAux] at h
          · exact absurd h (by simp)
          · injection h with he hst
            rw [hst]
          · exact absurd h (by simp)
        | numNode a =>
          refine ⟨fun v st' h => ?_, fun e st' h => ?_, fun hne h => ?_⟩ <;>
            simp only [visitAux] at h
          · exact absurd h (by simp)
          · injection h with he hst
            rw [hst]
          · exact absurd h (by simp)
        | procedureCall a b c =>
          refine ⟨fun v st' h => ?_, fun e st' h => ?_, fun hne h => ?_⟩ <;>
            simp only [visitAux] at h
          · exact absurd h (by simp)
          · injection h with he hst
            rw [hst]
          · exact absurd h (by simp)
      | programNode name block =>
        obtain ⟨ihB1, ihB2, ihB3⟩ :=
          ih (stackPush st ⟨name, .program, 1, []⟩) (.node block)
        have hpushne : (stackPush st ⟨name, .program, 1, []⟩).call_stack ≠ [] := by
          simp [stackPush]
        cases hB : visitAux n (stackPush st ⟨name, .program, 1, []⟩) (.node block) with
        | ok v1 st1 =>
          have hlen1 := ihB1 v1 st1 hB
          rw [stackPush_length] at hlen1
          refine ⟨fun v st' h => ?_, fun e st' h => ?_, fun hne h => ?_⟩ <;>
            simp only [visitAux, hB] at h
          · injection h with hv hst
            rw [← hst, stackPop_length]
            omega
          · exact absurd h (by simp)
          · exact absurd h (by simp)
        | err e1 st1 =>
          have hlen1 := ihB2 e1 st1 hB
          rw [stackPush_length] at hlen1
          refine ⟨fun v st' h => ?_, fun e st' h => ?_, fun hne h => ?_⟩ <;>
            simp only [visitAux, hB] at h
          · exact absurd h (by simp)
          · injection h with he hst
            rw [← hst, stackPop_length]
            omega
          · exact absurd h (by simp)
        | panic pk =>
          refine ⟨fun v st' h => ?_, fun e st' h => ?_, fun hne h => ?_⟩ <;>
            simp only [visitAux, hB] at h
          · exact absurd h (by simp)
          · exact absurd h (by simp)
          · injection h with hk
            exact ihB3 hpushne (by rw [hB, hk])
        | fuelOut =>
          refine ⟨fun v st' h => ?_, fun e st' h => ?_, fun hne h => ?_⟩ <;>
            simp only [visitAux, hB] at h <;> exact absurd h (by simp)
      | procedureCall proc_name args slot =>
        cases hcs : st.call_stack with
        | nil =>
          refine ⟨fun v st' h => ?_, fun e st' h => ?_, fun hne h => ?_⟩ <;>
            simp only [visitAux, hcs] at h
          · exact absurd h (by simp)
          · exact absurd h (by simp)
          · exact hne rfl
        | cons top rest =>
          cases slot with
          | none =>
            refine ⟨fun v st' h => ?_, fun e st' h => ?_, fun hne h => ?_⟩ <;>
              simp only [visitAux, hcs] at h
            · exact absurd h (by simp)
            · injection h with he hst
              rw [← hst, stackPush_length, hcs]
              omega
            · exact absurd h (by simp)
          | some sym =>
            obtain ⟨symname, symkind⟩ := sym
            cases symkind with
            | builtinType t =>
              refine ⟨fun v st' h => ?_, fun e st' h => ?_, fun hne h => ?_⟩ <;>
                simp only [visitAux, hcs] at h
              · exact absurd h (by simp)
              · injection h with he hst
                rw [← hst, stackPush_length, hcs]
                omega
              · exact absurd h (by simp)
            | varSymbol tn =>
              refine ⟨fun v st' h => ?_, fun e st' h => ?_, fun hne h => ?_⟩ <;>
                simp only [visitAux, hcs] at h
              · exact absurd h (by simp)
              · injection h with he hst
                rw [← hst, stackPush_length, hcs]
                omega
              · exact absurd h (by simp)
            | procedure param_names block =>
              obtain ⟨ihA1, ihA2, ihA3⟩ :=
                ih (stackPush st ⟨proc_name, .procedure, top.nesting_level + 1, []⟩)
                  (.binds (param_names.zip args))
              have hpushne :
                  (stackPush st ⟨proc_name, .procedure, top.nesting_level + 1, []⟩).call_stack
                    ≠ [] := by
                simp [stackPush]
              cases hA : visitAux n
                  (stackPush st ⟨proc_name, .procedure, top.nesting_level + 1, []⟩)
                  (.binds (param_names.zip args)) with
              | ok v1 st1 =>
                have hlen1 := ihA1 v1 st1 hA
                rw [stackPush_length, hcs] at hlen1
                obtain ⟨ihD1, ihD2, ihD3⟩ := ih st1 (.node block)
                cases hD : visitAux n st1 (.node block) with
                | ok v2 st2 =>
                  have hlen2 := ihD1 v2 st2 hD
                  refine ⟨fun v st' h => ?_, fun e st' h => ?_, fun hne h => ?_⟩ <;>
                    simp only [visitAux, hcs, hA, hD] at h
                  · injection h with hv hst
                    rw [← hst, stackPop_length]
                    omega
                  · exact absurd h (by simp)
                  · exact absurd h (by simp)
                | err e2 st2 =>
                  have hlen2 := ihD2 e2 st2 hD
                  refine ⟨fun v st' h => ?_, fun e st' h => ?_, fun hne h => ?_⟩ <;>
                    simp only [visitAux, hcs, hA, hD] at h
                  · exact absurd h (by simp)
                  · injection h with he hst
                    rw [← hst, stackPop_length]
                    omega
                  · exact absurd h (by simp)
                | panic pk =>
                  refine ⟨fun v st' h => ?_, fun e st' h => ?_, fun hne h => ?_⟩ <;>
                    simp only [visitAux, hcs, hA, hD] at h
                  · exact absurd h (by simp)
                  · exact absurd h (by simp)
                  · injection h with hk
                    have hst1ne : st1.call_stack ≠ [] := by
                      intro hcon
                      rw [hcon] at hlen1
                      simp at hlen1
                    exact ihD3 hst1ne (by rw [hD, hk])
                | fuelOut =>
                  refine ⟨fun v st' h => ?_, fun e st' h => ?_, fun hne h => ?_⟩ <;>
                    simp only [visitAux, hcs, hA, hD] at h <;> exact absurd h (by simp)
              | err e1 st1 =>
                have hlen1 := ihA2 e1 st1 hA
                rw [stackPush_length, hcs] at hlen1
                refine ⟨fun v st' h => ?_, fun e st' h => ?_, fun hne h => ?_⟩ <;>
                  simp only [visitAux, hcs, hA] at h
                · exact absurd h (by simp)
                · injection h with he hst
                  rw [← hst]
                  omega
                · exact absurd h (by simp)
              | panic pk =>
                refine ⟨fun v st' h => ?_, fun e st' h => ?_, fun hne h => ?_⟩ <;>
                  simp only [visitAux, hcs, hA] at h
                · exact absurd h (by simp)
                · exact absurd h (by simp)
                · injection h with hk
                  exact ihA3 hpushne (by rw [hA, hk])
              | fuelOut =>
                refine ⟨fun v st' h => ?_, fun e st' h => ?_, fun hne h => ?_⟩ <;>
                  simp only [visitAux, hcs, hA] at h <;> exact absurd h (by simp)
      | block decls cs =>
        obtain ⟨ihS1, ihS2, ihS3⟩ := ih st (.stmts decls)
        cases hS : visitAux n st (.stmts decls) with
        | ok v1 st1 =>
          have hlen1 := ihS1 v1 st1 hS
          obtain ⟨ihC1, ihC2, ihC3⟩ := ih st1 (.node cs)
          cases hC : visitAux n st1 (.node cs) with
          | ok v2 st2 =>
            have hlen2 := ihC1 v2 st2 hC
            refine ⟨fun v st' h => ?_, fun e st' h => ?_, fun hne h => ?_⟩ <;>
              simp only [visitAux, hS, hC] at h
            · injection h with hv hst
              rw [← hst]
              omega
            · exact absurd h (by simp)
            · exact absurd h (by simp)
          | err e2 st2 =>
            have hlen2 := ihC2 e2 st2 hC
            refine ⟨fun v st' h => ?_, fun e st' h => ?_, fun hne h => ?_⟩ <;>
              simp only [visitAux, hS, hC] at h
            · exact absurd h (by simp)
            · injection h with he hst
              rw [← hst]
              omega
            · exact absurd h (by simp)
          | panic pk =>
            refine ⟨fun v st' h => ?_, fun e st' h => ?_, fun hne h => ?_⟩ <;>
              simp only [visitAux, hS, hC] at h
            · exact absurd h (by simp)
            · exact absurd h (by simp)
            · injection h with hk
              exact ihC3 (call_stack_ne_nil_of_length_eq hlen1 hne) (by rw [hC, hk])
          | fuelOut =>
            refine ⟨fun v st' h => ?_, fun e st' h => ?_, fun hne h => ?_⟩ <;>
              simp only [visitAux, hS, hC] at h <;> exact absurd h (by simp)
        | err e1 st1 =>
          have hlen1 := ihS2 e1 st1 hS
          refine ⟨fun v st' h => ?_, fun e st' h => ?_, fun hne h => ?_⟩ <;>
            simp only [visitAux, hS] at h
          · exact absurd h (by simp)
          · injection h with he hst
            rw [← hst]
            exact hlen1
          · exact absurd h (by simp)
        | panic pk =>
          refine ⟨fun v st' h => ?_, fun e st' h => ?_, fun hne h => ?_⟩ <;>
            simp only [visitAux, hS] at h
          · exact absurd h (by simp)
          · exact absurd h (by simp)
          · injection h with hk
            exact ihS3 hne (by rw [hS, hk])
        | fuelOut =>
          refine ⟨fun v st' h => ?_, fun e st' h => ?_, fun hne h => ?_⟩ <;>
            simp only [visitAux, hS] at h <;> exact absurd h (by simp)

/-- C3 counterexample: visiting this Program node from an empty call stack
returns the run-time `UndefinedFunction` error (the call's resolver slot was
never populated), but the call stack on exit has depth 1, not its pre-visit
depth 0: `visit_procedure_call_node` pushed the `"p"` activation record and
returned the error without popping it, and the Program visit pops only its own
frame.  The activation record pushed on entry to the ProcedureCall visit is
therefore NOT popped on this error path, contrary to the claim. -/
theorem procedure_call_frame_leak_counterexample :
    visitAux 8 Interpreter.new (.node emptySlotCallProgram) =
        .err (.undefinedFunction "p") ⟨[⟨"main", .program, 1, []⟩]⟩ ∧
      ([⟨"main", ARType.program, 1, []⟩] : List ActivationRecord).length ≠
        Interpreter.new.call_stack.length :=
  ⟨rfl, by decide⟩

/-- C3 (amended): successful (`Ok`) visits of Program and ProcedureCall nodes
restore the call stack to its pre-visit depth; on error the depth never drops
below the pre-visit depth but is not restored in general — in particular, a
ProcedureCall whose resolver slot is empty pushes its activation record, then
returns `Err(UndefinedFunction)` with that frame still on the stack (the pop
runs only on paths that reach the body evaluation; the Program visit does pop
its own frame on both `Ok` and `Err`). -/
theorem stack_depth_restored_on_ok (n : Nat) (st : Interpreter) :
    (∀ name block v st', visitAux n st (.node (.programNode name block)) = .ok v st' →
      st'.call_stack.length = st.call_stack.length) ∧
    (∀ pname args slot v st',
      visitAux n st (.node (.procedureCall pname args slot)) = .ok v st' →
      st'.call_stack.length = st.call_stack.length) ∧
    (∀ name block e st', visitAux n st (.node (.programNode name block)) = .err e st' →
      st.call_stack.length ≤ st'.call_stack.length) ∧
    (∀ pname args slot e st',
      visitAux n st (.node (.procedureCall pname args slot)) = .err e st' →
      st.call_stack.length ≤ st'.call_stack.length) ∧
    (∀ pname args top rest, st.call_stack = top :: rest →
      visitAux (n + 1) st (.node (.procedureCall pname args none)) =
        .err (.undefinedFunction pname)
          (stackPush st ⟨pname, .procedure, top.nesting_level + 1, []⟩)) := by
  refine ⟨fun name block v st' h =>
      (visitAux_stack_invariant n st (.node (.programNode name block))).1 v st' h,
    fun pname args slot v st' h =>
      (visitAux_stack_invariant n st (.node (.procedureCall pname args slot))).1 v st' h,
    fun name block e st' h =>
      (visitAux_stack_invariant n st (.node (.programNode name block))).2.1 e st' h,
    fun pname args slot e st' h =>
      (visitAux_stack_invariant n st (.node (.procedureCall pname args slot))).2.1 e st' h,
    fun pname args top rest hcs => ?_⟩
  simp only [visitAux, hcs]

/-- C3 witness for `stack_depth_restored_on_ok` at concrete inputs: a trivial
program restores depth 0 on success, and a one-frame stack plus an
empty-slot call yields the undefined-function error with the frame pushed. -/
theorem stack_depth_restored_on_ok_witness :
    (Interpreter.new.call_stack.length = Interpreter.new.call_stack.length ∧
      visitAux 1 ⟨[⟨"main", .program, 1, []⟩]⟩ (.node (.procedureCall "p" [] none)) =
        .err (.undefinedFunction "p")
          (stackPush ⟨[⟨"main", .program, 1, []⟩]⟩ ⟨"p", .procedure, 1 + 1, []⟩)) ∧
      visitAux 6 Interpreter.new (.node (.programNode "m" trivialBlock)) =
        .ok none Interpreter.new :=
  ⟨⟨(stack_depth_restored_on_ok 6 Interpreter.new).1 "m" trivialBlock none
      Interpreter.new rfl,
    (stack_depth_restored_on_ok 0 ⟨[⟨"main", .program, 1, []⟩]⟩).2.2.2.2 "p" []
      ⟨"main", .program, 1, []⟩ [] rfl⟩,
   rfl⟩

/-- C9: the interpreter's Var read, Assign write and ProcedureCall entry all
`unwrap()` the top of the call stack: visiting any of them as the root of the
walk (fresh interpreter, empty stack — no Program node pushed a first
activation record) panics instead of returning an `InterpretError`; under a
Program root, the first frame is pushed before the body runs and every nested
visit keeps the stack non-empty, so the empty-stack `unwrap` panic is
unreachable. -/
theorem bare_root_unwrap_panics :
    (∀ (name : String) (n : Nat),
      visitAux (n + 1) Interpreter.new (.node (.var name)) =
        .panic .unwrapEmptyCallStack) ∧
    (∀ (name : String) (rhs : ASTNode) (v : BuiltinNumTypes) (st1 : Interpreter) (n : Nat),
      visitAux n Interpreter.new (.node rhs) = .ok (some v) st1 →
      st1.call_stack = [] →
      visitAux (n + 1) Interpreter.new (.node (.assign (.var name) rhs)) =
        .panic .unwrapEmptyCallStack) ∧
    (∀ (pname : String) (args : List ASTNode) (slot : Option Symbol) (n : Nat),
      visitAux (n + 1) Interpreter.new (.node (.procedureCall pname args slot)) =
        .panic .unwrapEmptyCallStack) ∧
    (∀ (n : Nat) (st : Interpreter) (name : String) (block : ASTNode),
      visitAux n st (.node (.programNode name block)) ≠ .panic .unwrapEmptyCallStack) := by
  refine ⟨fun name n => by simp [visitAux, Interpreter.new],
    fun name rhs v st1 n h1 h2 => by simp [visitAux, h1, h2],
    fun pname args slot n => by simp [visitAux, Interpreter.new],
    fun n st name block => ?_⟩
  cases n with
  | zero => simp [visitAux]
  | succ m =>
    intro h
    simp only [visitAux] at h
    cases hB : visitAux m (stackPush st ⟨name, .program, 1, []⟩) (.node block) with
    | ok v1 st1 => rw [hB] at h; exact absurd h (by simp)
    | err e1 st1 => rw [hB] at h; exact absurd h (by simp)
    | panic pk =>
      rw [hB] at h
      injection h with hk
      exact (visitAux_stack_invariant m (stackPush st ⟨name, .program, 1, []⟩)
        (.node block)).2.2 (by simp [stackPush]) (by rw [hB, hk])
    | fuelOut => rw [hB] at h; exact absurd h (by simp)

/-- C9 witness for `bare_root_unwrap_panics` at concrete inputs. -/
theorem bare_root_unwrap_panics_witness :
    visitAux 1 Interpreter.new (.node (.var "x")) = .panic .unwrapEmptyCallStack ∧
      (visitAux 1 Interpreter.new (.node (.numNode (.i32 5))) =
          .ok (some (.i32 5)) Interpreter.new ∧
        visitAux 2 Interpreter.new (.node (.assign (.var "x") (.numNode (.i32 5)))) =
          .panic .unwrapEmptyCallStack) ∧
      visitAux 1 Interpreter.new (.node (.procedureCall "p" [] none)) =
        .panic .unwrapEmptyCallStack :=
  ⟨bare_root_unwrap_panics.1 "x" 0,
   ⟨rfl, bare_root_unwrap_panics.2.1 "x" (.numNode (.i32 5)) (.i32 5) Interpreter.new 1
      rfl rfl⟩,
   bare_root_unwrap_panics.2.2.1 "p" [] none 0⟩

/-- C4 (amended, general half): when the interpreter visits a `Var` node and
returns an error, that error is always `UninitializedVariable` for the
visited name, with the state unchanged — `visit_var_node` consults only the
top activation record; the `Interpreter` struct holds no symbol table and the
`UndefinedVariable` error kind is never produced at run time (it belongs to
semantic analysis). -/
theorem visit_var_err_uninitialized (n : Nat) (st : Interpreter) (name : String)
    (e : InterpretError) (st' : Interpreter)
    (h : visitAux n st (.node (.var name)) = .err e st') :
    e = .uninitializedVariable name ∧ st' = st := by
  cases n with
  | zero => simp [visitAux] at h
  | succ m =>
    cases hcs : st.call_stack with
    | nil => simp [visitAux, hcs] at h
    | cons ar rest =>
      cases hget : ar.get name with
      | some v => simp [visitAux, hcs, hget] at h
      | none =>
        simp [visitAux, hcs, hget] at h
        exact ⟨h.1.symm, h.2.symm⟩

/-- C4 witness for `visit_var_err_uninitialized` at a concrete input: a frame
with no binding for `x`. -/
theorem visit_var_err_uninitialized_witness :
    visitAux 1 ⟨[⟨"main", .program, 1, []⟩]⟩ (.node (.var "x")) =
        .err (.uninitializedVariable "x") ⟨[⟨"main", .program, 1, []⟩]⟩ ∧
      (InterpretError.uninitializedVariable "x" = .uninitializedVariable "x" ∧
        (⟨[⟨"main", .program, 1, []⟩]⟩ : Interpreter) = ⟨[⟨"main", .program, 1, []⟩]⟩) :=
  ⟨rfl, visit_var_err_uninitialized 1 ⟨[⟨"main", .program, 1, []⟩]⟩ "x"
    (.uninitializedVariable "x") ⟨[⟨"main", .program, 1, []⟩]⟩ rfl⟩

/-- C4 counterexample: at the very input the claim is about — the top frame
has no binding for `x` AND no symbol table declares `x` (the interpreter holds
no symbol table at all) — the error returned is `UninitializedVariable`, not
the `UndefinedVariable` the claim says the interpreter can produce; the two
error values are distinct, so the claimed run-time re-check against a symbol
table does not happen. -/
theorem visit_var_no_undefined_counterexample :
    visitAux 1 ⟨[⟨"main", .program, 1, []⟩]⟩ (.node (.var "x")) =
        .err (.uninitializedVariable "x") ⟨[⟨"main", .program, 1, []⟩]⟩ ∧
      InterpretError.uninitializedVariable "x" ≠ .undefinedVariable "x" :=
  ⟨rfl, by decide⟩

/-- C8: for a `BinOpNode` whose operands evaluate to values `lv`, `rv`, if
`rv` casts to the `i32` value `0` then the `DIV` arm performs the unguarded
`i32` division and panics (divide-by-zero abort) instead of returning an
`InterpretError` or a value, while the float-division arm `/` on the same
operands returns an `F32` value without error (in Rust an infinity; a value
either way, which is what the model captures). -/
theorem div_by_zero_panics (n : Nat) (st st1 st2 : Interpreter) (l r : ASTNode)
    (lv rv : BuiltinNumTypes)
    (hl : visitAux n st (.node l) = .ok (some lv) st1)
    (hr : visitAux n st1 (.node r) = .ok (some rv) st2)
    (hz : ratAsI32 rv.toRat = 0) :
    visitAux (n + 1) st (.node (.binOpNode l r .integerDiv)) = .panic .divideByZero ∧
      visitAux (n + 1) st (.node (.binOpNode l r .floatDiv)) =
        .ok (some (.f32 (lv.toRat / rv.toRat))) st2 := by
  constructor <;> simp [visitAux, hl, hr, hz]

/-- C8 witness: `10 DIV 0` panics, `10 / 0` returns a value. -/
theorem div_by_zero_panics_witness :
    visitAux 1 Interpreter.new (.node (.numNode (.i32 10))) =
        .ok (some (.i32 10)) Interpreter.new ∧
      visitAux 1 Interpreter.new (.node (.numNode (.i32 0))) =
        .ok (some (.i32 0)) Interpreter.new ∧
      ratAsI32 (BuiltinNumTypes.i32 0).toRat = 0 ∧
      visitAux 2 Interpreter.new
          (.node (.binOpNode (.numNode (.i32 10)) (.numNode (.i32 0)) .integerDiv)) =
        .panic .divideByZero ∧
      visitAux 2 Interpreter.new
          (.node (.binOpNode (.numNode (.i32 10)) (.numNode (.i32 0)) .floatDiv)) =
        .ok (some (.f32 ((BuiltinNumTypes.i32 10).toRat / (BuiltinNumTypes.i32 0).toRat)))
          Interpreter.new :=
  ⟨rfl, rfl, rfl,
    (div_by_zero_panics 1 Interpreter.new Interpreter.new Interpreter.new
      (.numNode (.i32 10)) (.numNode (.i32 0)) (.i32 10) (.i32 0) rfl rfl rfl).1,
    (div_by_zero_panics 1 Interpreter.new Interpreter.new Interpreter.new
      (.numNode (.i32 10)) (.numNode (.i32 0)) (.i32 10) (.i32 0) rfl rfl rfl).2⟩

theorem valOf_toRat (e : AExp) : (valOf e).toRat = e.eval := by
  cases e with
  | lit n => simp [valOf, BuiltinNumTypes.toRat, AExp.eval]
  | add a b => rfl
  | sub a b => rfl
  | mul a b => rfl
  | div a b => rfl

theorem visit_astOf (e : AExp) : ∀ (st : Interpreter) (n : Nat), evalFuelA e ≤ n →
    visitAux n st (.node (astOf e)) = .ok (some (valOf e)) st := by
  induction e with
  | lit v =>
    intro st n hn
    obtain ⟨m, rfl⟩ : ∃ x, n = x + 1 := ⟨n - 1, by simp [evalFuelA] at hn; omega⟩
    simp [visitAux, astOf, valOf]
  | add a b iha ihb =>
    intro st n hn
    simp only [evalFuelA] at hn
    obtain ⟨m, rfl⟩ : ∃ x, n = x + 1 := ⟨n - 1, by omega⟩
    have ha := iha st m (by omega)
    have hb := ihb st m (by omega)
    simp only [astOf, visitAux, ha, hb]
    simp only [valOf_toRat]
    rfl
  | sub a b iha ihb =>
    intro st n hn
    simp only [evalFuelA] at hn
    obtain ⟨m, rfl⟩ : ∃ x, n = x + 1 := ⟨n - 1, by omega⟩
    have ha := iha st m (by omega)
    have hb := ihb st m (by omega)
    simp only [astOf, visitAux, ha, hb]
    simp only [valOf_toRat]
    rfl
  | mul a b iha ihb =>
    intro st n hn
    simp only [evalFuelA] at hn
    obtain ⟨m, rfl⟩ : ∃ x, n = x + 1 := ⟨n - 1, by omega⟩
    have ha := iha st m (by omega)
    have hb := ihb st m (by omega)
    simp only [astOf, visitAux, ha, hb]
    simp only [valOf_toRat]
    rfl
  | div a b iha ihb =>
    intro st n hn
    simp only [evalFuelA] at hn
    obtain ⟨m, rfl⟩ : ∃ x, n = x + 1 := ⟨n - 1, by omega⟩
    have ha := iha st m (by omega)
    have hb := ihb st m (by omega)
    simp only [astOf, visitAux, ha, hb]
    simp only [valOf_toRat]
    rfl

/-- C2: for every arithmetic expression over integer literals with `+ - * /`
and parentheses (`AExp`, rendered with minimal parentheses by `printE`),
parsing produces exactly the left-associated, precedence-respecting tree
`astOf e`, and interpreting that tree yields the value whose rational content
is the standard mathematical result `e.eval` (a bare literal keeps its `I32`
tag; every arithmetic node yields `F32`, cf. C1); concretely, the full
pipeline gives `"2 + 3 * 4"` → `14` and `"(1 + 2) * 3"` → `9`.  (`f32` is
modelled as an exact rational, so "mathematical result" is exact; `/` is
rational division on both sides of the correspondence.) -/
theorem parse_interpret_roundtrip :
    (∀ (e : AExp) (n : Nat), 3 * (printE e).length + 2 ≤ n →
      parseAux n (mkPState (printE e)) .expr = .ok (astOf e) ⟨.eof, []⟩) ∧
    (∀ (e : AExp) (st : Interpreter) (n : Nat), evalFuelA e ≤ n →
      visitAux n st (.node (astOf e)) = .ok (some (valOf e)) st) ∧
    (∀ e : AExp, (valOf e).toRat = e.eval) ∧
    evalArithString "2 + 3 * 4" = some (.ok (some (.f32 14)) Interpreter.new) ∧
    evalArithString "(1 + 2) * 3" = some (.ok (some (.f32 9)) Interpreter.new) := by
  refine ⟨fun e n hn => ?_, fun e => visit_astOf e, valOf_toRat,
    by with_unfolding_all rfl, by with_unfolding_all rfl⟩
  have h := (parse_print_all (3 * (printE e).length + 2) e).2.2 le_rfl [] n hn
    (by simp [tokHead]) (by simp [tokHead]) (by simp [tokHead]) (by simp [tokHead])
    (by simp [tokHead])
  simpa [mkPState] using h

/-- C2 witness for `parse_interpret_roundtrip` at the concrete expression
`2 + 3`. -/
theorem parse_interpret_roundtrip_witness :
    (3 * (printE (.add (.lit 2) (.lit 3))).length + 2 ≤ 11 ∧
      parseAux 11 (mkPState (printE (.add (.lit 2) (.lit 3)))) .expr =
        .ok (astOf (.add (.lit 2) (.lit 3))) ⟨.eof, []⟩) ∧
    (evalFuelA (.add (.lit 2) (.lit 3)) ≤ 2 ∧
      visitAux 2 Interpreter.new (.node (astOf (.add (.lit 2) (.lit 3)))) =
        .ok (some (valOf (.add (.lit 2) (.lit 3)))) Interpreter.new) :=
  ⟨⟨by decide, parse_interpret_roundtrip.1 (.add (.lit 2) (.lit 3)) 11 (by decide)⟩,
   ⟨by decide, parse_interpret_roundtrip.2.1 (.add (.lit 2) (.lit 3)) Interpreter.new 2
      (by decide)⟩⟩

/-- C1: every unary or binary arithmetic operation that returns `Ok` produces
a value tagged Real (`F32`), never Integer; each operand is promoted to `f32`
(an `I32` payload is cast), as the explicit `+` formula shows; `DIV` computes
truncating integer division on the operands cast to `i32` and re-tags the
quotient as Real; and `"10 DIV 4"` evaluates end-to-end to `Real(2.0)`, which
is not `2.5`. -/
theorem arithmetic_results_tagged_real :
    (∀ (n : Nat) (st : Interpreter) (e : ASTNode) (tok : Token)
      (v : Option BuiltinNumTypes) (st' : Interpreter),
      visitAux n st (.node (.unaryOpNode e tok)) = .ok v st' → ∃ q, v = some (.f32 q)) ∧
    (∀ (n : Nat) (st : Interpreter) (l r : ASTNode) (op : Token)
      (v : Option BuiltinNumTypes) (st' : Interpreter),
      visitAux n st (.node (.binOpNode l r op)) = .ok v st' → ∃ q, v = some (.f32 q)) ∧
    (∀ (n : Nat) (st st1 st2 : Interpreter) (l r : ASTNode) (lv rv : BuiltinNumTypes),
      visitAux n st (.node l) = .ok (some lv) st1 →
      visitAux n st1 (.node r) = .ok (some rv) st2 →
      visitAux (n + 1) st (.node (.binOpNode l r .plus)) =
        .ok (some (.f32 (lv.toRat + rv.toRat))) st2) ∧
    (∀ (n : Nat) (st st1 st2 : Interpreter) (l r : ASTNode) (lv rv : BuiltinNumTypes),
      visitAux n st (.node l) = .ok (some lv) st1 →
      visitAux n st1 (.node r) = .ok (some rv) st2 →
      ratAsI32 rv.toRat ≠ 0 →
      ¬(ratAsI32 lv.toRat = i32Min ∧ ratAsI32 rv.toRat = -1) →
      visitAux (n + 1) st (.node (.binOpNode l r .integerDiv)) =
        .ok (some (.f32 ((Int.tdiv (ratAsI32 lv.toRat) (ratAsI32 rv.toRat) : Int) : Rat)))
          st2) ∧
    evalArithString "10 DIV 4" = some (.ok (some (.f32 2)) Interpreter.new) ∧
    BuiltinNumTypes.f32 2 ≠ .f32 (5 / 2) := by
  refine ⟨fun n st e tok v st' h => ?_, fun n st l r op v st' h => ?_,
    fun n st st1 st2 l r lv rv hl hr => by simp [visitAux, hl, hr],
    fun n st st1 st2 l r lv rv hl hr hnz hno => by simp [visitAux, hl, hr, hnz, hno],
    by with_unfolding_all rfl,
    by simp only [ne_eq, BuiltinNumTypes.f32.injEq]; norm_num⟩
  · cases n with
    | zero => simp [visitAux] at h
    | succ m =>
      simp only [visitAux] at h
      cases hE : visitAux m st (.node e) with
      | ok v1 st1 =>
        cases v1 with
        | none => simp only [hE] at h; exact absurd h (by simp)
        | some w =>
          simp only [hE] at h
          split at h
          · injection h with hv hst
            exact ⟨_, hv.symm⟩
          · injection h with hv hst
            exact ⟨_, hv.symm⟩
          · exact absurd h (by simp)
      | err e1 st1 => simp only [hE] at h; exact absurd h (by simp)
      | panic pk => simp only [hE] at h; exact absurd h (by simp)
      | fuelOut => simp only [hE] at h; exact absurd h (by simp)
  · cases n with
    | zero => simp [visitAux] at h
    | succ m =>
      simp only [visitAux] at h
      cases hL : visitAux m st (.node l) with
      | ok v1 st1 =>
        cases v1 with
        | none => simp only [hL] at h; exact absurd h (by simp)
        | some lv =>
          simp only [hL] at h
          cases hR : visitAux m st1 (.node r) with
          | ok v2 st2 =>
            cases v2 with
            | none => simp only [hR] at h; exact absurd h (by simp)
            | some rv =>
              simp only [hR] at h
              split at h
              · injection h with hv hst
                exact ⟨_, hv.symm⟩
              · injection h with hv hst
                exact ⟨_, hv.symm⟩
              · injection h with hv hst
                exact ⟨_, hv.symm⟩
              · injection h with hv hst
                exact ⟨_, hv.symm⟩
              · split at h
                · exact absurd h (by simp)
                · split at h
                  · exact absurd h (by simp)
                  · injection h with hv hst
                    exact ⟨_, hv.symm⟩
              · exact absurd h (by simp)
          | err e2 st2 => simp only [hR] at h; exact absurd h (by simp)
          | panic pk => simp only [hR] at h; exact absurd h (by simp)
          | fuelOut => simp only [hR] at h; exact absurd h (by simp)
      | err e1 st1 => simp only [hL] at h; exact absurd h (by simp)
      | panic pk => simp only [hL] at h; exact absurd h (by simp)
      | fuelOut => simp only [hL] at h; exact absurd h (by simp)

/-- C1 witness for `arithmetic_results_tagged_real` at concrete inputs. -/
theorem arithmetic_results_tagged_real_witness :
    (∃ q, (some (BuiltinNumTypes.f32 (7 : Rat)) : Option BuiltinNumTypes) =
      some (.f32 q)) ∧
    (∃ q, (some (BuiltinNumTypes.f32 ((1 : Rat) + (2 : Rat))) : Option BuiltinNumTypes) =
      some (.f32 q)) ∧
    visitAux 2 Interpreter.new
        (.node (.binOpNode (.numNode (.f32 1)) (.numNode (.f32 2)) .plus)) =
      .ok (some (.f32 ((BuiltinNumTypes.f32 1).toRat + (BuiltinNumTypes.f32 2).toRat)))
        Interpreter.new ∧
    visitAux 2 Interpreter.new
        (.node (.binOpNode (.numNode (.i32 10)) (.numNode (.i32 4)) .integerDiv)) =
      .ok (some (.f32 ((Int.tdiv (ratAsI32 (BuiltinNumTypes.i32 10).toRat)
          (ratAsI32 (BuiltinNumTypes.i32 4).toRat) : Int) : Rat))) Interpreter.new :=
  ⟨arithmetic_results_tagged_real.1 2 Interpreter.new (.numNode (.f32 7)) .plus
      (some (.f32 7)) Interpreter.new rfl,
    arithmetic_results_tagged_real.2.1 2 Interpreter.new (.numNode (.f32 1))
      (.numNode (.f32 2)) .plus (some (.f32 (1 + 2))) Interpreter.new rfl,
    arithmetic_results_tagged_real.2.2.1 1 Interpreter.new Interpreter.new
      Interpreter.new (.numNode (.f32 1)) (.numNode (.f32 2)) (.f32 1) (.f32 2) rfl rfl,
    arithmetic_results_tagged_real.2.2.2.1 1 Interpreter.new Interpreter.new
      Interpreter.new (.numNode (.i32 10)) (.numNode (.i32 4)) (.i32 10) (.i32 4) rfl rfl
      (by with_unfolding_all decide) (by with_unfolding_all decide)⟩

theorem updateSymAssoc_find_self (tbl : List (String × Symbol)) (sym : Symbol) :
    ((Scope.define.updateSymAssoc tbl sym).find? (fun p => p.1 = sym.name)).map (·.2) =
      some sym := by
  induction tbl with
  | nil => simp [Scope.define.updateSymAssoc, List.find?]
  | cons kv t ih =>
    obtain ⟨k, w⟩ := kv
    by_cases hk : k = sym.name
    · simp [Scope.define.updateSymAssoc, hk, List.find?]
    · simp [Scope.define.updateSymAssoc, hk, List.find?, ih]

theorem updateSymAssoc_find_ne (tbl : List (String × Symbol)) (sym : Symbol) (x : String)
    (h : x ≠ sym.name) :
    ((Scope.define.updateSymAssoc tbl sym).find? (fun p => p.1 = x)).map (·.2) =
      (tbl.find? (fun p => p.1 = x)).map (·.2) := by
  induction tbl with
  | nil => simp [Scope.define.updateSymAssoc, List.find?, Ne.symm h]
  | cons kv t ih =>
    obtain ⟨k, w⟩ := kv
    by_cases hk : k = sym.name
    · simp [Scope.define.updateSymAssoc, hk, List.find?, Ne.symm h]
    · by_cases hx : k = x
      · subst hx
        simp [Scope.define.updateSymAssoc, hk, List.find?]
      · simp [Scope.define.updateSymAssoc, hk, List.find?, hx, ih]

theorem define_lookupLocal_self (s : Scope) (sym : Symbol) :
    (s.define sym).lookupLocal sym.name = some sym := by
  cases s
  simp [Scope.define, Scope.lookupLocal, updateSymAssoc_find_self]

theorem define_lookupLocal_ne (s : Scope) (sym : Symbol) (x : String) (h : x ≠ sym.name) :
    (s.define sym).lookupLocal x = s.lookupLocal x := by
  cases s
  simp [Scope.define, Scope.lookupLocal, updateSymAssoc_find_ne _ _ _ h]

theorem defineSymbol_lookup_ne (sa : SemanticAnalyzer) (sym : Symbol) (x : String)
    (b : Bool) (h : x ≠ sym.name) :
    (sa.defineSymbol sym).lookup x b = sa.lookup x b := by
  cases sa with
  | mk scopes =>
    cases scopes with
    | nil => rfl
    | cons s rest =>
      simp [SemanticAnalyzer.defineSymbol, SemanticAnalyzer.lookup, lookupChain,
        define_lookupLocal_ne _ _ _ h]

theorem defineParams_lookup_ne :
    ∀ (params : List ASTNode) (sa sa' : SemanticAnalyzer) (names : List String)
      (x : String) (b : Bool),
      defineParams params sa = .ok sa' → collectParamNames params = .ok names →
      x ∉ names → sa'.lookup x b = sa.lookup x b := by
  intro params
  induction params with
  | nil =>
    intro sa sa' names x b h hc hx
    simp only [defineParams] at h
    injection h with h
    rw [← h]
  | cons nd rest ih =>
    intro sa sa' names x b h hc hx
    cases nd with
    | param var_node type_node =>
      cases var_node with
      | var nm =>
        cases type_node with
        | typeNode tn =>
          simp only [defineParams] at h
          cases hcr : collectParamNames rest with
          | error e => simp [collectParamNames, hcr] at hc
          | ok names' =>
            simp only [collectParamNames, hcr] at hc
            injection hc with hc
            rw [← hc] at hx
            simp only [List.mem_cons, not_or] at hx
            rw [ih _ sa' names' x b h hcr hx.2]
            exact defineSymbol_lookup_ne sa (.mk nm (.varSymbol tn)) x b hx.1
        | programNode a b' => simp [defineParams] at h
        | block a b' => simp [defineParams] at h
        | procedureDecl a b' c => simp [defineParams] at h
        | param a b' => simp [defineParams] at h
        | varDecl a b' => simp [defineParams] at h
        | compound a => simp [defineParams] at h
        | assign a b' => simp [defineParams] at h
        | var a => simp [defineParams] at h
        | noOp => simp [defineParams] at h
        | unaryOpNode a b' => simp [defineParams] at h
        | binOpNode a b' c => simp [defineParams] at h
        | numNode a => simp [defineParams] at h
        | procedureCall a b' c => simp [defineParams] at h
      | programNode a b' => simp [defineParams] at h
      | block a b' => simp [defineParams] at h
      | procedureDecl a b' c => simp [defineParams] at h
      | param a b' => simp [defineParams] at h
      | varDecl a b' => simp [defineParams] at h
      | typeNode a => simp [defineParams] at h
      | compound a => simp [defineParams] at h
      | assign a b' => simp [defineParams] at h
      | noOp => simp [defineParams] at h
      | unaryOpNode a b' => simp [defineParams] at h
      | binOpNode a b' c => simp [defineParams] at h
      | numNode a => simp [defineParams] at h
      | procedureCall a b' c => simp [defineParams] at h
    | programNode a b' => simp [defineParams] at h
    | block a b' => simp [defineParams] at h
    | procedureDecl a b' c => simp [defineParams] at h
    | varDecl a b' => simp [defineParams] at h
    | typeNode a => simp [defineParams] at h
    | compound a => simp [defineParams] at h
    | assign a b' => simp [defineParams] at h
    | var a => simp [defineParams] at h
    | noOp => simp [defineParams] at h
    | unaryOpNode a b' => simp [defineParams] at h
    | binOpNode a b' c => simp [defineParams] at h
    | numNode a => simp [defineParams] at h
    | procedureCall a b' c => simp [defineParams] at h

theorem scopeNew_lookupLocal_ne (nm : String) (lvl : Nat) (x : String)
    (h1 : x ≠ "INTEGER") (h2 : x ≠ "REAL") : (Scope.new nm lvl).lookupLocal x = none := by
  simp [Scope.new, Scope.lookupLocal, builtinSymbols, BuiltinTypes.toName, List.find?,
    Ne.symm h1, Ne.symm h2]

/-- C5 counterexample: `dupProcProgram` declares procedure `p` twice in the
same scope, yet semantic analysis succeeds — `visit_procedure_decl_node`
defines the symbol without any duplicate check, silently overwriting the
earlier declaration instead of returning `SymbolAlreadyDefined` as the claim
states for "any declaration (variable or procedure)". -/
theorem proc_redeclaration_not_rejected_counterexample :
    analyze 20 dupProcProgram = .ok SemanticAnalyzer.new := rfl

/-- C5 (amended): redeclaration in the same scope is rejected with
`SymbolAlreadyDefined` for VARIABLE declarations only — `visit_var_decl_node`
checks the current scope before defining — while PROCEDURE declarations are
defined without any duplicate check and silently overwrite the earlier symbol
(here: re-declaring `pname` over any existing binding succeeds and the
analyzer state ends with the procedure symbol defined). -/
theorem var_dup_rejected_proc_dup_overwrites :
    (∀ (n : Nat) (sa : SemanticAnalyzer) (var_name type_name : String) (tsym vsym : Symbol),
      sa.lookup type_name false = some tsym →
      sa.lookup var_name true = some vsym →
      saVisitAux (n + 1) sa (.node (.varDecl (.var var_name) (.typeNode type_name))) =
        .err (.symbolAlreadyDefined var_name) sa) ∧
    (∀ (n : Nat) (sa : SemanticAnalyzer) (pname : String), sa.scopes ≠ [] →
      saVisitAux (n + 5) sa (.node (.procedureDecl pname [] trivialBlock)) =
        .ok (sa.defineSymbol (.mk pname (.procedure [] trivialBlock)))) ∧
    analyze 20 dupVarProgram = .err (.symbolAlreadyDefined "x") SemanticAnalyzer.new := by
  refine ⟨fun n sa var_name type_name tsym vsym ht hv => ?_, fun n sa pname hne => ?_, rfl⟩
  · simp [saVisitAux, SemanticAnalyzer.lookup] at ht hv ⊢
    simp [ht, hv]
  · cases sa with
    | mk scopes =>
      cases scopes with
      | nil => exact absurd rfl hne
      | cons s rest =>
        rw [show n + 5 = n + 1 + 1 + 1 + 1 + 1 by omega]
        simp [saVisitAux, collectParamNames, defineParams, trivialBlock,
          SemanticAnalyzer.defineSymbol, SemanticAnalyzer.enterScope,
          SemanticAnalyzer.exitScope]

/-- C5 witness for `var_dup_rejected_proc_dup_overwrites` at concrete inputs:
an analyzer whose current scope already binds `x` rejects `VAR x : INTEGER`,
and a fresh analyzer accepts a re-declared trivial procedure. -/
theorem var_dup_rejected_proc_dup_overwrites_witness :
    (SemanticAnalyzer.new.defineSymbol (.mk "x" (.varSymbol "INTEGER"))).lookup
        "INTEGER" false = some (.mk "INTEGER" (.builtinType .integer)) ∧
      (SemanticAnalyzer.new.defineSymbol (.mk "x" (.varSymbol "INTEGER"))).lookup
        "x" true = some (.mk "x" (.varSymbol "INTEGER")) ∧
      saVisitAux 1 (SemanticAnalyzer.new.defineSymbol (.mk "x" (.varSymbol "INTEGER")))
          (.node (.varDecl (.var "x") (.typeNode "INTEGER"))) =
        .err (.symbolAlreadyDefined "x")
          (SemanticAnalyzer.new.defineSymbol (.mk "x" (.varSymbol "INTEGER"))) ∧
      saVisitAux 5 SemanticAnalyzer.new (.node (.procedureDecl "p" [] trivialBlock)) =
        .ok (SemanticAnalyzer.new.defineSymbol (.mk "p" (.procedure [] trivialBlock))) :=
  ⟨rfl, rfl,
    var_dup_rejected_proc_dup_overwrites.1 0
      (SemanticAnalyzer.new.defineSymbol (.mk "x" (.varSymbol "INTEGER"))) "x" "INTEGER"
      (.mk "INTEGER" (.builtinType .integer)) (.mk "x" (.varSymbol "INTEGER")) rfl rfl,
    var_dup_rejected_proc_dup_overwrites.2.1 0 SemanticAnalyzer.new "p"
      (by simp [SemanticAnalyzer.new])⟩

/-- C6 counterexample: `shadowProgram` is a program whose procedure body
calls the procedure itself (`p(1)` inside `p`, arity matching), yet semantic
analysis fails with `UndefinedFunction "p"`: the parameter named `p`, declared
in the procedure's own scope, shadows the procedure symbol defined in the
enclosing scope, so the recursive-call lookup finds a `Variable` symbol —
refuting "for every program in which a procedure's body calls the procedure
itself, analysis resolves the recursive call successfully". -/
theorem recursive_call_shadowed_counterexample :
    analyze 20 shadowProgram = .err (.undefinedFunction "p") SemanticAnalyzer.new := rfl

/-- C6 (amended): `visit_procedure_decl_node` defines the procedure's symbol
in the enclosing (current) scope before entering the procedure's own scope,
so a recursive call in the body resolves successfully PROVIDED nothing nearer
rebinds the name: (1) after defining the procedure over a non-empty scope
chain and declaring its parameters in the fresh inner scope, looking the name
up from the body's scope state finds the procedure symbol as long as no
parameter shares the procedure's name and the name is not a builtin type
name; (2) whenever lookup yields the procedure symbol with matching arity,
visiting the call reduces to visiting its arguments — never the
`UndefinedFunction` error; (3) concretely, the self-recursive `recProgram`
analyzes successfully. -/
theorem procedure_defined_in_enclosing_scope_enables_recursion :
    (∀ (sa sa3 : SemanticAnalyzer) (s : Scope) (rest : List Scope) (pname : String)
      (names : List String) (block : ASTNode) (params : List ASTNode),
      sa.scopes = s :: rest →
      collectParamNames params = .ok names →
      defineParams params
          ((sa.defineSymbol (.mk pname (.procedure names block))).enterScope pname) =
        .ok sa3 →
      pname ∉ names → pname ≠ "INTEGER" → pname ≠ "REAL" →
      sa3.lookup pname false = some (.mk pname (.procedure names block))) ∧
    (∀ (n : Nat) (sa : SemanticAnalyzer) (pname nm : String) (args : List ASTNode)
      (names : List String) (blk : ASTNode) (slot : Option Symbol),
      sa.lookup pname false = some (.mk nm (.procedure names blk)) →
      names.length = args.length →
      saVisitAux (n + 1) sa (.node (.procedureCall pname args slot)) =
        saVisitAux n sa (.stmts args)) ∧
    analyze 20 recProgram = .ok SemanticAnalyzer.new := by
  refine ⟨fun sa sa3 s rest pname names block params hsc hcol hdef hpn h1 h2 => ?_,
    fun n sa pname nm args names blk slot hlook harity => ?_, rfl⟩
  · rw [defineParams_lookup_ne params _ sa3 names pname false hdef hcol hpn]
    cases sa with
    | mk scopes =>
      rw [show SemanticAnalyzer.mk scopes = SemanticAnalyzer.mk (s :: rest) by rw [← hsc]]
      simp only [SemanticAnalyzer.defineSymbol, SemanticAnalyzer.enterScope,
        SemanticAnalyzer.lookup, lookupChain, scopeNew_lookupLocal_ne _ _ _ h1 h2]
      have hself := define_lookupLocal_self s (.mk pname (.procedure names block))
      simp only [Symbol.name] at hself
      simp [hself]
  · simp only [saVisitAux, hlook, harity]
    simp

/-- C6 witness for
`procedure_defined_in_enclosing_scopeenables_recursion` at concrete inputs:
a fresh analyzer, procedure `q` with no parameters, and a resolvable
zero-argument call. -/
theorem procedure_recursion_witness :
    ((SemanticAnalyzer.new.defineSymbol (.mk "q" (.procedure [] trivialBlock))).enterScope
          "q").lookup "q" false = some (.mk "q" (.procedure [] trivialBlock)) ∧
      saVisitAux 1
          (SemanticAnalyzer.new.defineSymbol (.mk "q" (.procedure [] trivialBlock)))
          (.node (.procedureCall "q" [] none)) =
        saVisitAux 0
          (SemanticAnalyzer.new.defineSymbol (.mk "q" (.procedure [] trivialBlock)))
          (.stmts []) :=
  ⟨procedure_defined_in_enclosing_scope_enables_recursion.1
      SemanticAnalyzer.new
      ((SemanticAnalyzer.new.defineSymbol (.mk "q" (.procedure [] trivialBlock))).enterScope
        "q")
      (Scope.new "0" 0) [] "q" [] trivialBlock [] rfl rfl rfl (by simp) (by decide)
      (by decide),
    procedure_defined_in_enclosing_scope_enables_recursion.2.1 0
      (SemanticAnalyzer.new.defineSymbol (.mk "q" (.procedure [] trivialBlock))) "q" "q"
      [] [] trivialBlock none rfl rfl⟩

theorem takeWhile_append_of_all {p : Char → Bool} :
    ∀ (ds rest : List Char), (∀ c ∈ ds, p c = true) →
      (∀ c, rest.head? = some c → p c = false) →
      (ds ++ rest).takeWhile p = ds ∧ (ds ++ rest).dropWhile p = rest := by
  intro ds
  induction ds with
  | nil =>
    intro rest _ hrest
    cases rest with
    | nil => simp
    | cons c t =>
      have : p c = false := hrest c rfl
      simp [List.takeWhile, List.dropWhile, this]
  | cons d ds ih =>
    intro rest hds hrest
    have hd : p d = true := hds d (by simp)
    have := ih rest (fun c hc => hds c (by simp [hc])) hrest
    simp [List.takeWhile, List.dropWhile, hd, this.1, this.2]

/-- C7: `Lexer::number` accepts digits followed by a decimal point with no
trailing digits: for any nonempty digit run `ds` followed by `'.'` and then
input not starting with a digit, it returns `Ok` with a `RealConst` token
whose value is the real constructed from the consumed characters (the integer
part alone, fraction zero), consuming through the dot — no error and no
separate validation pass; concretely, lexing `"12."` yields `RealConst(12.0)`
with all input consumed. -/
theorem lexer_dangling_decimal :
    (∀ (ds k : List Char), ds ≠ [] → (∀ c ∈ ds, c.isDigit = true) →
      (∀ c, k.head? = some c → c.isDigit = false) →
      lexNumber (ds ++ '.' :: k) = .ok (.realConst (digitsToNat ds : Rat), k)) ∧
    nextToken "12.".toList = .ok (.realConst 12, []) := by
  constructor
  · intro ds k hne hds hk
    have hsplit := takeWhile_append_of_all ds ('.' :: k) hds
      (fun c hc => by
        rw [List.head?_cons] at hc
        injection hc with hc
        subst hc
        decide)
    have hk2 := takeWhile_append_of_all [] k (by simp) hk
    rw [List.nil_append] at hk2
    simp [lexNumber, hsplit.1, hsplit.2, hne, hk2.1, hk2.2, realOfParts, digitsToNat]
  · with_unfolding_all rfl

/-- C7 witness for the general half of `lexer_dangling_decimal` at
`ds = ['1','2']`, `k = []`. -/
theorem lexer_dangling_decimal_witness :
    (['1', '2'] : List Char) ≠ [] ∧
      lexNumber (['1', '2'] ++ '.' :: []) =
        .ok (.realConst (digitsToNat ['1', '2'] : Rat), []) :=
  ⟨by decide,
    lexer_dangling_decimal.1 ['1', '2'] [] (by decide) (by decide) (by simp)⟩

theorem skipComment_no_close : ∀ (cs : List Char), '}' ∉ cs → skipComment cs = [] := by
  intro cs
  induction cs with
  | nil => intro _; rfl
  | cons c t ih =>
    intro h
    have hc : ¬ c = '}' := by intro hc; exact h (by simp [hc])
    simp [skipComment, hc]
    exact ih (fun ht => h (by simp [ht]))

/-- C10: a comment opened with `{` that is never closed by `}` is not a
lexical error: `next_token` consumes all remaining input and returns `Eof`
with no `LexError` (fuel `length + 2` always suffices: consuming the `{` and
then producing `Eof` from the emptied input). -/
theorem unterminated_comment_eof (cs : List Char) (n : Nat)
    (h : '}' ∉ cs) (hn : cs.length + 2 ≤ n) :
    nextTokenF n ('{' :: cs) = .ok (.eof, []) := by
  obtain ⟨m, rfl⟩ : ∃ m, n = m + 2 := ⟨n - 2, by omega⟩
  have h1 : (('{' : Char) :: cs).dropWhile Char.isWhitespace = '{' :: cs := by
    simp [List.dropWhile]
  have hd1 : ('{' : Char).isDigit = false := by decide
  have hd2 : ('{' : Char).isAlphanum = false := by decide
  simp [nextTokenF, h1, hd1, hd2, skipComment_no_close cs h]

/-- C10 witness: `"{ abc"` (no closing brace) lexes to `Eof`. -/
theorem unterminated_comment_eof_witness :
    ('}' ∉ [' ', 'a', 'b', 'c'] ∧ [' ', 'a', 'b', 'c'].length + 2 ≤ 6) ∧
      nextTokenF 6 ('{' :: [' ', 'a', 'b', 'c']) = .ok (.eof, []) :=
  ⟨⟨by decide, by decide⟩,
    unterminated_comment_eof [' ', 'a', 'b', 'c'] 6 (by decide) (by decide)⟩

end Pascal

